import Mathlib

/-!
Verification of the memoizing decorator helpers (`cachetools/_decorators.py`).

The embedding models:
* the external Cache Contract (`CacheModel`): lookup that distinguishes absence,
  insertion that may be rejected (Python `ValueError` for an over-capacity value),
  and full clear;
* each wrapper strategy from the source as an explicit state-passing function
  (keys, values and error payloads are `Nat`; a Python exception raised by the
  underlying function is `Except.error`);
* the Condition-Gated (`_cached_cond_info`) and Locked (`_cached_locked_info`)
  strategies additionally as small-step interleaved semantics over a pool of
  threads, with an event trace recording lock-section observations
  (wait completion, lookups, PendingSet updates, stores, `notify_all`).
-/

deriving instance DecidableEq for Except

namespace Cachetools

/-- The external Cache Contract: `lookup` returns `none` for a missing key
(Python `KeyError` path), `insert` models `cache[k] = v` and returns `none`
when the store is rejected (Python `ValueError`, value too large), `clear`
models `cache.clear()`. -/

structure CacheModel (σ : Type) where
  lookup : σ → Nat → Option Nat
  insert : σ → Nat → Nat → Option σ
  clear : σ → σ

/-- Python `cache.setdefault(k, v)`: return the stored value if present,
otherwise store `v` (which may be rejected, propagating the rejection). -/

def CacheModel.setdefault {σ : Type} (m : CacheModel σ) (c : σ) (k v : Nat) :
    Option (Nat × σ) :=
  match m.lookup c k with
  | some w => some (w, c)
  | none => (m.insert c k v).map (fun c' => (v, c'))

/-- The guarded store of the locked strategies:
`try: return cache.setdefault(k, v) except ValueError: return v`. -/

def lockedStore {σ : Type} (m : CacheModel σ) (c : σ) (k v : Nat) : Nat × σ :=
  match m.setdefault c k v with
  | some wc => wc
  | none => (v, c)

/-- The guarded store of the unlocked / condition strategies:
`try: cache[k] = v except ValueError: pass`. -/

def storeOrKeep {σ : Type} (m : CacheModel σ) (c : σ) (k v : Nat) : σ :=
  match m.insert c k v with
  | some c' => c'
  | none => c

/-- Association-list lookup used by the concrete cache. -/

def listLookup : List (Nat × Nat) → Nat → Option Nat
  | [], _ => none
  | (k', v) :: ps, k => if k' = k then some v else listLookup ps k

/-- A concrete cache that accepts and retains every insertion. -/

def listCache : CacheModel (List (Nat × Nat)) where
  lookup := listLookup
  insert := fun c k v => some ((k, v) :: c)
  clear := fun _ => []

/-- A concrete cache that rejects every insertion (always over capacity). -/

def rejectCache : CacheModel Unit where
  lookup := fun _ _ => none
  insert := fun _ _ _ => none
  clear := fun _ => ()

/-! ### Sequential state-passing models of the strategies

A wrapper call takes the call argument and the wrapper's mutable state and
returns the Python outcome (`Except.error e` when the call raises) together
with the state after the call. -/

/-- Mutable closure state of the stats-carrying cached strategies:
the cache object plus the `hits`/`misses` counters. -/

structure InfoSt (σ : Type) where
  cache : σ
  hits : Nat
  misses : Nat

/-- One call of the `_cached_unlocked_info` wrapper (source lines 87-101). -/

def cached_unlocked_info_call {σ α : Type} (m : CacheModel σ) (key : α → Nat)
    (func : α → Except Nat Nat) (a : α) (st : InfoSt σ) :
    Except Nat Nat × InfoSt σ :=
  let k := key a
  match m.lookup st.cache k with
  | some r => (.ok r, { st with hits := st.hits + 1 })
  | none =>
    let st1 : InfoSt σ := { st with misses := st.misses + 1 }
    match func a with
    | .error e => (.error e, st1)
    | .ok v => (.ok v, { st1 with cache := storeOrKeep m st1.cache k v })

/-- Model of `_cached_unlocked_info.cache_clear` (source lines 103-106). -/

def cached_unlocked_info_clear {σ : Type} (m : CacheModel σ) (st : InfoSt σ) :
    InfoSt σ :=
  { cache := m.clear st.cache, hits := 0, misses := 0 }

/-- Model of `_cached_unlocked_info.cache_info` (source line 109): snapshot of the
counters, handed to the `info` formatter as `(hits, misses)`. -/

def cached_unlocked_info_info {σ : Type} (st : InfoSt σ) : Nat × Nat :=
  (st.hits, st.misses)

/-- One call of the `_cached_locked_info` wrapper (source lines 51-67);
single-caller semantics, lock sections are uninterrupted. -/

def cached_locked_info_call {σ α : Type} (m : CacheModel σ) (key : α → Nat)
    (func : α → Except Nat Nat) (a : α) (st : InfoSt σ) :
    Except Nat Nat × InfoSt σ :=
  let k := key a
  match m.lookup st.cache k with
  | some r => (.ok r, { st with hits := st.hits + 1 })
  | none =>
    let st1 : InfoSt σ := { st with misses := st.misses + 1 }
    match func a with
    | .error e => (.error e, st1)
    | .ok v =>
      let wc := lockedStore m st1.cache k v
      (.ok wc.1, { st1 with cache := wc.2 })

/-- Model of `_cached_locked_info.cache_clear` (source lines 69-73). -/

def cached_locked_info_clear {σ : Type} (m : CacheModel σ) (st : InfoSt σ) :
    InfoSt σ :=
  { cache := m.clear st.cache, hits := 0, misses := 0 }

/-- Model of `_cached_locked_info.cache_info` (source lines 75-77). -/

def cached_locked_info_info {σ : Type} (st : InfoSt σ) : Nat × Nat :=
  (st.hits, st.misses)

/-- One call of the `_uncached_info` wrapper (source lines 116-119); its only
state is the `misses` counter. -/

def uncached_info_call {α : Type} (func : α → Except Nat Nat) (a : α)
    (misses : Nat) : Except Nat Nat × Nat :=
  (func a, misses + 1)

/-- Model of `_uncached_info.cache_clear` (source lines 121-123). -/

def uncached_info_clear (_misses : Nat) : Nat := 0

/-- Model of `_uncached_info.cache_info` (source line 126): always `(0, misses)`. -/

def uncached_info_info (misses : Nat) : Nat × Nat := (0, misses)

/-- One call of the no-stats `_cached_unlocked` wrapper (source lines 155-166). -/

def cached_unlocked_call {σ α : Type} (m : CacheModel σ) (key : α → Nat)
    (func : α → Except Nat Nat) (a : α) (c : σ) : Except Nat Nat × σ :=
  let k := key a
  match m.lookup c k with
  | some r => (.ok r, c)
  | none =>
    match func a with
    | .error e => (.error e, c)
    | .ok v => (.ok v, storeOrKeep m c k v)

/-- Model of `_cached_unlocked.cache_clear` (source line 168). -/

def cached_unlocked_clear {σ : Type} (m : CacheModel σ) (c : σ) : σ := m.clear c

/-- One call of the no-stats `_cached_locked` wrapper (source lines 131-144). -/

def cached_locked_call {σ α : Type} (m : CacheModel σ) (key : α → Nat)
    (func : α → Except Nat Nat) (a : α) (c : σ) : Except Nat Nat × σ :=
  let k := key a
  match m.lookup c k with
  | some r => (.ok r, c)
  | none =>
    match func a with
    | .error e => (.error e, c)
    | .ok v =>
      let wc := lockedStore m c k v
      (.ok wc.1, wc.2)

/-- Model of `_cached_locked.cache_clear` (source lines 146-148). -/

def cached_locked_clear {σ : Type} (m : CacheModel σ) (c : σ) : σ := m.clear c

/-- One call of the `_uncached` wrapper (source lines 173-174). -/

def uncached_call {α : Type} (func : α → Except Nat Nat) (a : α) :
    Except Nat Nat :=
  func a

/-- Model of `_uncached.cache_clear` (source line 176): `lambda: None`. -/

def uncached_clear : Unit → Unit := fun u => u

/-- Runs a sequence of wrapper calls, threading the wrapper state. -/

def runInfoCalls {σ α : Type}
    (call : α → InfoSt σ → Except Nat Nat × InfoSt σ) :
    List α → InfoSt σ → InfoSt σ
  | [], st => st
  | a :: as, st => runInfoCalls call as (call a st).2

/-- Number of misses a call sequence with the given derived keys produces
when the keys in `seen` are already cached: a key misses the first time it
appears and hits afterwards. -/
def missCountF (seen : Finset Nat) : List Nat → Nat
  | [] => 0
  | k :: ks =>
    if k ∈ seen then missCountF seen ks else missCountF (insert k seen) ks + 1

/-! ### Strategy selection (`_cached_wrapper`, source lines 235-253) -/

/-- Duck-typed shape of the supplied lock object: which of the two condition
operations it exposes (`hasattr(lock, "wait_for")`, `hasattr(lock, "notify_all")`). -/

structure LockLike where
  wait_for : Bool
  notify_all : Bool
deriving DecidableEq

/-- The six wrapper behaviors the selector can produce. -/

inductive Strategy where
  | uncachedInfo
  | unlockedInfo
  | condInfo
  | lockedInfo
  | uncached
  | unlocked
  | locked
deriving DecidableEq

/-- The selection logic of `_cached_wrapper` (source lines 235-253):
`hasCache`/`lock` describe the `cache`/`lock` arguments, `hasInfo` whether
`info` was supplied. -/

def cached_wrapper_select (hasCache : Bool) (lock : Option LockLike)
    (hasInfo : Bool) : Strategy :=
  if hasInfo then
    if !hasCache then .uncachedInfo
    else
      match lock with
      | none => .unlockedInfo
      | some l => if l.wait_for && l.notify_all then .condInfo else .lockedInfo
  else
    if !hasCache then .uncached
    else
      match lock with
      | none => .unlocked
      | some _ => .locked

/-! ### Interleaved semantics of `_cached_cond_info` (source lines 4-45)

Each thread runs one wrapper call. Its key is already derived and the outcome
of its (unlocked) invocation of the underlying function is predetermined.
Every lock-protected section of the source is one atomic step; `wait_for`
blocking is modelled by the step making no progress while the key is pending. -/

/-- Program counter of one `_cached_cond_info.wrapper` call:
`start` = about to enter the first `with cond` section, `computing` = between
the lock sections, invoking `func`, `finishing` = result (or failure)
established, `finally` cleanup section still to run, `done` = call returned
(`.ok`) or raised (`.error`). -/

inductive CondThread where
  | start (k : Nat) (out : Except Nat Nat)
  | computing (k : Nat) (out : Except Nat Nat)
  | finishing (k : Nat) (res : Except Nat Nat)
  | done (k : Nat) (res : Except Nat Nat)
deriving DecidableEq

/-- Observable events of the condition-gated wrapper, in program order. -/

inductive CondEvent where
  | waited (t k : Nat)
  | lookupHit (t k : Nat)
  | lookupMiss (t k : Nat)
  | addPending (t k : Nat)
  | invoke (t k : Nat)
  | store (t k v : Nat)
  | removePending (t k : Nat)
  | notifyAll (t : Nat)
deriving DecidableEq

/-- Shared state of the condition-gated wrapper plus the thread pool and the
event trace. -/

structure CondState (σ : Type) where
  cache : σ
  pending : List Nat
  hits : Nat
  misses : Nat
  threads : Nat → CondThread
  trace : List CondEvent

/-- Pointwise update of the thread pool. -/

def updThread (ts : Nat → CondThread) (i : Nat) (t : CondThread) :
    Nat → CondThread :=
  fun j => if j = i then t else ts j

/-- One atomic step of thread `i` in the condition-gated wrapper.  From
`start`: the first `with cond` section (blocked while `k ∈ pending`, else
lookup, and on a miss `pending.add(k); misses += 1` before the lock is
released).  From `computing`: the invocation of `func` together with the
store section (`with cond: try: cache[k] = v except ValueError: pass`),
skipped when `func` raises.  From `finishing`: the `finally` section
(`with cond: pending.remove(k); cond.notify_all()`). -/

def condStep1 {σ : Type} (m : CacheModel σ) (s : CondState σ) (i : Nat) :
    CondState σ :=
  match s.threads i with
  | .start k out =>
    if k ∈ s.pending then s
    else
      match m.lookup s.cache k with
      | some v =>
        { s with hits := s.hits + 1,
                 threads := updThread s.threads i (.done k (.ok v)),
                 trace := s.trace ++ [.waited i k, .lookupHit i k] }
      | none =>
        { s with pending := k :: s.pending, misses := s.misses + 1,
                 threads := updThread s.threads i (.computing k out),
                 trace := s.trace ++
                   [.waited i k, .lookupMiss i k, .addPending i k] }
  | .computing k out =>
    match out with
    | .ok v =>
      { s with cache := storeOrKeep m s.cache k v,
               threads := updThread s.threads i (.finishing k (.ok v)),
               trace := s.trace ++ [.invoke i k, .store i k v] }
    | .error e =>
      { s with threads := updThread s.threads i (.finishing k (.error e)),
               trace := s.trace ++ [.invoke i k] }
  | .finishing k r =>
    { s with pending := s.pending.erase k,
             threads := updThread s.threads i (.done k r),
             trace := s.trace ++ [.removePending i k, .notifyAll i] }
  | .done _ _ => s

/-- Runs the condition-gated pool under an explicit schedule of thread ids. -/

def condExec {σ : Type} (m : CacheModel σ) : List Nat → CondState σ →
    CondState σ
  | [], s => s
  | i :: sched, s => condExec m sched (condStep1 m s i)

/-- Initial pool: thread `i` is about to run one wrapper call with key
`(ts.get i).1` and predetermined function outcome `(ts.get i).2`; ids past the
pool are inert completed hit calls. -/

def condInit {σ : Type} (ts : List (Nat × Except Nat Nat)) (c0 : σ) :
    CondState σ :=
  { cache := c0, pending := [], hits := 0, misses := 0,
    threads := fun i =>
      match ts.get? i with
      | some ko => .start ko.1 ko.2
      | none => .done 0 (.ok 0),
    trace := [] }

/-- Model of `_cached_cond_info.cache_clear` (source lines 33-37): clears the cache and
zeroes the counters; `pending` is untouched. -/

def cached_cond_info_clear {σ : Type} (m : CacheModel σ) (s : CondState σ) :
    CondState σ :=
  { s with cache := m.clear s.cache, hits := 0, misses := 0 }

/-- Model of `_cached_cond_info.cache_info` (source lines 39-41). -/

def cached_cond_info_info {σ : Type} (s : CondState σ) : Nat × Nat :=
  (s.hits, s.misses)

/-- Whether thread state `t` currently owns key `k` in the PendingSet (it is
between its pending-add and its `finally` removal). -/

def isOwner (t : CondThread) (k : Nat) : Bool :=
  match t with
  | .computing k' _ => k' = k
  | .finishing k' _ => k' = k
  | _ => false

/-- Structural invariant of the condition-gated pool: the PendingSet has no
duplicates, every in-flight computation's key is pending, each pending key has
exactly one in-flight owner. -/

structure CondInv {σ : Type} (s : CondState σ) : Prop where
  nodup : s.pending.Nodup
  owned : ∀ i k, isOwner (s.threads i) k = true → k ∈ s.pending
  uniq : ∀ i j k, i ≠ j → isOwner (s.threads i) k = true →
    isOwner (s.threads j) k = true → False
  covered : ∀ k, k ∈ s.pending → ∃ i, isOwner (s.threads i) k = true

/-- Per-thread history facts tying a state reachable from `s0` back to `s0`:
keys and predetermined outcomes are those of the initial pool, an error result
is the thread's own function failure unmodified, a completed failing call has
run its `finally` cleanup (PendingSet removal and `notify_all`), and every
store event comes from a thread whose function returned that value. -/

structure CondLineage {σ : Type} (s0 s : CondState σ) : Prop where
  started : ∀ i k out, s.threads i = .start k out → s0.threads i = .start k out
  comp : ∀ i k out, s.threads i = .computing k out → s0.threads i = .start k out
  finErr : ∀ i k e, s.threads i = .finishing k (.error e) →
    s0.threads i = .start k (.error e)
  doneErr : ∀ i k e, s.threads i = .done k (.error e) →
    s0.threads i = .start k (.error e) ∧
    CondEvent.removePending i k ∈ s.trace ∧ CondEvent.notifyAll i ∈ s.trace
  stored : ∀ i k v, CondEvent.store i k v ∈ s.trace →
    s0.threads i = .start k (.ok v)

/-- While a thread is computing a missing key, the key stays absent from the
cache (no other caller can store it: they are blocked on the PendingSet). -/

def CondAbsent {σ : Type} (m : CacheModel σ) (s : CondState σ) : Prop :=
  ∀ i k out, s.threads i = .computing k out → m.lookup s.cache k = none

/-! ### Interleaved semantics of `_cached_locked_info` (source lines 48-81) -/

/-- Program counter of one `_cached_locked_info.wrapper` call. -/

inductive LockedThread where
  | start (k : Nat) (out : Except Nat Nat)
  | computing (k : Nat) (out : Except Nat Nat)
  | done (k : Nat) (res : Except Nat Nat)
deriving DecidableEq

/-- Shared state of the locked wrapper plus the thread pool. -/

structure LockedState (σ : Type) where
  cache : σ
  hits : Nat
  misses : Nat
  threads : Nat → LockedThread

/-- Pointwise update of the locked thread pool. -/

def updLThread (ts : Nat → LockedThread) (i : Nat) (t : LockedThread) :
    Nat → LockedThread :=
  fun j => if j = i then t else ts j

/-- One atomic step of thread `i` in the locked wrapper: the first `with lock`
section (lookup plus counter update), then the invocation of `func` together
with the second `with lock` section
(`try: return cache.setdefault(k, v) except ValueError: return v`). -/

def lockedStep1 {σ : Type} (m : CacheModel σ) (s : LockedState σ) (i : Nat) :
    LockedState σ :=
  match s.threads i with
  | .start k out =>
    match m.lookup s.cache k with
    | some v =>
      { s with hits := s.hits + 1,
               threads := updLThread s.threads i (.done k (.ok v)) }
    | none =>
      { s with misses := s.misses + 1,
               threads := updLThread s.threads i (.computing k out) }
  | .computing k out =>
    match out with
    | .ok v =>
      let wc := lockedStore m s.cache k v
      { s with cache := wc.2,
               threads := updLThread s.threads i (.done k (.ok wc.1)) }
    | .error e =>
      { s with threads := updLThread s.threads i (.done k (.error e)) }
  | .done _ _ => s

/-- Runs the locked pool under an explicit schedule of thread ids. -/

def lockedExec {σ : Type} (m : CacheModel σ) : List Nat → LockedState σ →
    LockedState σ
  | [], s => s
  | i :: sched, s => lockedExec m sched (lockedStep1 m s i)

/-! ### Method-bound variants (source lines 180-232)

Instances are `Nat`; the per-instance cache accessor maps an instance to the
id of its cache (or `none`, the absent-cache sentinel), and the shared state
maps cache ids to cache contents.  The locked variant records each
`with lock(self)` acquisition as an event. -/

/-- Lock-acquisition event of the locked method-bound variant. -/

inductive MEvent where
  | lockAcq (i : Nat)
deriving DecidableEq

/-- Pointwise update of the cache-id-indexed cache pool. -/

def updCache {σ : Type} (cs : Nat → σ) (cid : Nat) (c : σ) : Nat → σ :=
  fun j => if j = cid then c else cs j

/-- One call of the `_cachedmethod_unlocked` wrapper (source lines 210-224). -/

def cachedmethod_unlocked_call {σ α : Type} (m : CacheModel σ)
    (acc : Nat → Option Nat) (key : Nat → α → Nat)
    (method : Nat → α → Except Nat Nat) (i : Nat) (a : α) (cs : Nat → σ) :
    Except Nat Nat × (Nat → σ) :=
  match acc i with
  | none => (method i a, cs)
  | some cid =>
    let k := key i a
    match m.lookup (cs cid) k with
    | some r => (.ok r, cs)
    | none =>
      match method i a with
      | .error e => (.error e, cs)
      | .ok v => (.ok v, updCache cs cid (storeOrKeep m (cs cid) k v))

/-- Model of `_cachedmethod_unlocked.cache_clear` (source lines 226-229). -/

def cachedmethod_unlocked_clear {σ : Type} (m : CacheModel σ)
    (acc : Nat → Option Nat) (i : Nat) (cs : Nat → σ) : Nat → σ :=
  match acc i with
  | none => cs
  | some cid => updCache cs cid (m.clear (cs cid))

/-- One call of the `_cachedmethod_locked` wrapper (source lines 181-197),
also reporting the `with lock(self)` acquisitions it performed. -/

def cachedmethod_locked_call {σ α : Type} (m : CacheModel σ)
    (acc : Nat → Option Nat) (key : Nat → α → Nat)
    (method : Nat → α → Except Nat Nat) (i : Nat) (a : α) (cs : Nat → σ) :
    Except Nat Nat × (Nat → σ) × List MEvent :=
  match acc i with
  | none => (method i a, cs, [])
  | some cid =>
    let k := key i a
    match m.lookup (cs cid) k with
    | some r => (.ok r, cs, [.lockAcq i])
    | none =>
      match method i a with
      | .error e => (.error e, cs, [.lockAcq i])
      | .ok v =>
        let wc := lockedStore m (cs cid) k v
        (.ok wc.1, updCache cs cid wc.2, [.lockAcq i, .lockAcq i])

/-- Model of `_cachedmethod_locked.cache_clear` (source lines 199-203), also reporting
the lock acquisitions it performed. -/

def cachedmethod_locked_clear {σ : Type} (m : CacheModel σ)
    (acc : Nat → Option Nat) (i : Nat) (cs : Nat → σ) :
    (Nat → σ) × List MEvent :=
  match acc i with
  | none => (cs, [])
  | some cid => (updCache cs cid (m.clear (cs cid)), [.lockAcq i])

/-! ### Lemmas and invariant proofs -/

theorem lockedStore_eq {σ : Type} (m : CacheModel σ) (c : σ) (k v : Nat) :
    lockedStore m c k v =
      match m.lookup c k with
      | some w => (w, c)
      | none => (v, storeOrKeep m c k v) := by
  unfold lockedStore CacheModel.setdefault storeOrKeep
  cases m.lookup c k with
  | none =>
    cases m.insert c k v with
    | none => rfl
    | some c' => rfl
  | some w => rfl

theorem listCache_retain (c : List (Nat × Nat)) (k v : Nat) :
    ∀ k', listCache.lookup ((k, v) :: c) k' =
      if k' = k then some v else listCache.lookup c k' := by
  intro k'
  show listLookup ((k, v) :: c) k' = _
  by_cases h : k' = k
  · subst h; simp [listLookup]
  · simp [listLookup, listCache, if_neg h, if_neg (Ne.symm h)]

@[simp]
theorem updThread_same (ts : Nat → CondThread) (i : Nat) (t : CondThread) :
    updThread ts i t i = t := by
  simp [updThread]

theorem updThread_ne (ts : Nat → CondThread) {i j : Nat} (t : CondThread)
    (h : j ≠ i) : updThread ts i t j = ts j := by
  simp [updThread, h]

@[simp]
theorem isOwner_start (k : Nat) (out : Except Nat Nat) (k' : Nat) :
    isOwner (.start k out) k' = false := rfl

@[simp]
theorem isOwner_done (k : Nat) (r : Except Nat Nat) (k' : Nat) :
    isOwner (.done k r) k' = false := rfl

@[simp]
theorem isOwner_computing (k : Nat) (out : Except Nat Nat) (k' : Nat) :
    isOwner (.computing k out) k' = true ↔ k = k' := by
  simp [isOwner]

@[simp]
theorem isOwner_finishing (k : Nat) (r : Except Nat Nat) (k' : Nat) :
    isOwner (.finishing k r) k' = true ↔ k = k' := by
  simp [isOwner]

theorem condInit_not_owner {σ : Type} (ts : List (Nat × Except Nat Nat))
    (c0 : σ) (i k : Nat) : isOwner ((condInit ts c0).threads i) k = false := by
  show isOwner
    (match ts.get? i with
     | some ko => CondThread.start ko.1 ko.2
     | none => CondThread.done 0 (.ok 0)) k = false
  rcases ts.get? i with _ | ko <;> rfl

theorem condInv_init {σ : Type} (ts : List (Nat × Except Nat Nat)) (c0 : σ) :
    CondInv (condInit ts c0) := by
  refine ⟨List.nodup_nil, ?_, ?_, ?_⟩
  · intro i k hk
    simp [condInit_not_owner] at hk
  · intro i j k _ hi _
    simp [condInit_not_owner] at hi
  · intro k hk
    simp [condInit] at hk

theorem condInv_step {σ : Type} (m : CacheModel σ) (s : CondState σ) (i : Nat)
    (h : CondInv s) : CondInv (condStep1 m s i) := by
  rcases hth : s.threads i with ⟨k, out⟩ | ⟨k, out⟩ | ⟨k, r⟩ | ⟨k, r⟩
  · -- start: first lock section
    by_cases hp : k ∈ s.pending
    · simpa [condStep1, hth, hp] using h
    · rcases hlk : m.lookup s.cache k with _ | v
      · -- miss: add to pending, go computing
        have hstep : condStep1 m s i =
            { s with pending := k :: s.pending, misses := s.misses + 1,
                     threads := updThread s.threads i (.computing k out),
                     trace := s.trace ++
                       [.waited i k, .lookupMiss i k, .addPending i k] } := by
          simp [condStep1, hth, hp, hlk]
        rw [hstep]
        refine ⟨List.nodup_cons.mpr ⟨hp, h.nodup⟩, ?_, ?_, ?_⟩
        · intro j k' hj
          dsimp only at hj ⊢
          by_cases hji : j = i
          · subst hji
            rw [updThread_same] at hj
            rw [isOwner_computing] at hj
            subst hj
            exact List.mem_cons_self _ _
          · rw [updThread_ne _ _ hji] at hj
            exact List.mem_cons_of_mem _ (h.owned j k' hj)
        · intro j j' k' hjj hj hj'
          dsimp only at hj hj'
          by_cases hji : j = i
          · subst hji
            rw [updThread_same, isOwner_computing] at hj
            subst hj
            rw [updThread_ne _ _ (Ne.symm hjj)] at hj'
            exact hp (h.owned j' k hj')
          · rw [updThread_ne _ _ hji] at hj
            by_cases hj'i : j' = i
            · subst hj'i
              rw [updThread_same, isOwner_computing] at hj'
              subst hj'
              exact hp (h.owned j k hj)
            · rw [updThread_ne _ _ hj'i] at hj'
              exact h.uniq j j' k' hjj hj hj'
        · intro k' hk'
          dsimp only at hk' ⊢
          rcases List.mem_cons.mp hk' with rfl | hk'
          · exact ⟨i, by simp⟩
          · obtain ⟨j, hj⟩ := h.covered k' hk'
            have hji : j ≠ i := by
              intro hji
              subst hji
              rw [hth] at hj
              simp at hj
            exact ⟨j, by rw [updThread_ne _ _ hji]; exact hj⟩
      · -- hit: done immediately
        have hstep : condStep1 m s i =
            { s with hits := s.hits + 1,
                     threads := updThread s.threads i (.done k (.ok v)),
                     trace := s.trace ++ [.waited i k, .lookupHit i k] } := by
          simp [condStep1, hth, hp, hlk]
        rw [hstep]
        refine ⟨h.nodup, ?_, ?_, ?_⟩
        · intro j k' hj
          dsimp only at hj ⊢
          by_cases hji : j = i
          · subst hji; rw [updThread_same] at hj; simp at hj
          · rw [updThread_ne _ _ hji] at hj
            exact h.owned j k' hj
        · intro j j' k' hjj hj hj'
          dsimp only at hj hj'
          by_cases hji : j = i
          · subst hji; rw [updThread_same] at hj; simp at hj
          · rw [updThread_ne _ _ hji] at hj
            by_cases hj'i : j' = i
            · subst hj'i; rw [updThread_same] at hj'; simp at hj'
            · rw [updThread_ne _ _ hj'i] at hj'
              exact h.uniq j j' k' hjj hj hj'
        · intro k' hk'
          dsimp only at hk' ⊢
          obtain ⟨j, hj⟩ := h.covered k' hk'
          have hji : j ≠ i := by
            intro hji
            subst hji
            rw [hth] at hj
            simp at hj
          exact ⟨j, by rw [updThread_ne _ _ hji]; exact hj⟩
  · -- computing: invoke func, maybe store
    rcases out with e | v
    · -- func raised
      have hstep : condStep1 m s i =
          { s with threads := updThread s.threads i (.finishing k (.error e)),
                   trace := s.trace ++ [.invoke i k] } := by
        simp [condStep1, hth]
      rw [hstep]
      refine ⟨h.nodup, ?_, ?_, ?_⟩
      · intro j k' hj
        dsimp only at hj ⊢
        by_cases hji : j = i
        · subst hji
          rw [updThread_same, isOwner_finishing] at hj
          subst hj
          exact h.owned j k (by rw [hth]; simp)
        · rw [updThread_ne _ _ hji] at hj
          exact h.owned j k' hj
      · intro j j' k' hjj hj hj'
        dsimp only at hj hj'
        by_cases hji : j = i
        · subst hji
          rw [updThread_same, isOwner_finishing] at hj
          subst hj
          have hj'i : j' ≠ j := Ne.symm hjj
          rw [updThread_ne _ _ hj'i] at hj'
          exact h.uniq _ _ k hjj (by rw [hth]; simp) hj'
        · rw [updThread_ne _ _ hji] at hj
          by_cases hj'i : j' = i
          · subst hj'i
            rw [updThread_same, isOwner_finishing] at hj'
            subst hj'
            exact h.uniq _ _ k hjj hj (by rw [hth]; simp)
          · rw [updThread_ne _ _ hj'i] at hj'
            exact h.uniq j j' k' hjj hj hj'
      · intro k' hk'
        dsimp only at hk' ⊢
        obtain ⟨j, hj⟩ := h.covered k' hk'
        by_cases hji : j = i
        · subst hji
          rw [hth, isOwner_computing] at hj
          subst hj
          exact ⟨j, by simp⟩
        · exact ⟨j, by rw [updThread_ne _ _ hji]; exact hj⟩
    · -- func returned v: store section
      have hstep : condStep1 m s i =
          { s with cache := storeOrKeep m s.cache k v,
                   threads := updThread s.threads i (.finishing k (.ok v)),
                   trace := s.trace ++ [.invoke i k, .store i k v] } := by
        simp [condStep1, hth]
      rw [hstep]
      refine ⟨h.nodup, ?_, ?_, ?_⟩
      · intro j k' hj
        dsimp only at hj ⊢
        by_cases hji : j = i
        · subst hji
          rw [updThread_same, isOwner_finishing] at hj
          subst hj
          exact h.owned j k (by rw [hth]; simp)
        · rw [updThread_ne _ _ hji] at hj
          exact h.owned j k' hj
      · intro j j' k' hjj hj hj'
        dsimp only at hj hj'
        by_cases hji : j = i
        · subst hji
          rw [updThread_same, isOwner_finishing] at hj
          subst hj
          rw [updThread_ne _ _ (Ne.symm hjj)] at hj'
          exact h.uniq _ _ k hjj (by rw [hth]; simp) hj'
        · rw [updThread_ne _ _ hji] at hj
          by_cases hj'i : j' = i
          · subst hj'i
            rw [updThread_same, isOwner_finishing] at hj'
            subst hj'
            exact h.uniq _ _ k hjj hj (by rw [hth]; simp)
          · rw [updThread_ne _ _ hj'i] at hj'
            exact h.uniq j j' k' hjj hj hj'
      · intro k' hk'
        dsimp only at hk' ⊢
        obtain ⟨j, hj⟩ := h.covered k' hk'
        by_cases hji : j = i
        · subst hji
          rw [hth, isOwner_computing] at hj
          subst hj
          exact ⟨j, by simp⟩
        · exact ⟨j, by rw [updThread_ne _ _ hji]; exact hj⟩
  · -- finishing: finally section, remove from pending
    have hstep : condStep1 m s i =
        { s with pending := s.pending.erase k,
                 threads := updThread s.threads i (.done k r),
                 trace := s.trace ++ [.removePending i k, .notifyAll i] } := by
      simp [condStep1, hth]
    rw [hstep]
    have howni : isOwner (s.threads i) k = true := by rw [hth]; simp
    refine ⟨h.nodup.erase k, ?_, ?_, ?_⟩
    · intro j k' hj
      dsimp only at hj ⊢
      by_cases hji : j = i
      · subst hji; rw [updThread_same] at hj; simp at hj
      · rw [updThread_ne _ _ hji] at hj
        have hk' : k' ∈ s.pending := h.owned j k' hj
        have hne : k' ≠ k := by
          intro hkk
          subst hkk
          exact h.uniq j i k' hji hj howni
        exact (h.nodup.mem_erase_iff).mpr ⟨hne, hk'⟩
    · intro j j' k' hjj hj hj'
      dsimp only at hj hj'
      by_cases hji : j = i
      · subst hji; rw [updThread_same] at hj; simp at hj
      · rw [updThread_ne _ _ hji] at hj
        by_cases hj'i : j' = i
        · subst hj'i; rw [updThread_same] at hj'; simp at hj'
        · rw [updThread_ne _ _ hj'i] at hj'
          exact h.uniq j j' k' hjj hj hj'
    · intro k' hk'
      dsimp only at hk' ⊢
      have hk'2 := (h.nodup.mem_erase_iff).mp hk'
      obtain ⟨j, hj⟩ := h.covered k' hk'2.2
      have hji : j ≠ i := by
        intro hji
        subst hji
        rw [hth, isOwner_finishing] at hj
        exact hk'2.1 hj.symm
      exact ⟨j, by rw [updThread_ne _ _ hji]; exact hj⟩
  · -- done: inert
    simpa [condStep1, hth] using h

theorem condInv_exec {σ : Type} (m : CacheModel σ) (sched : List Nat)
    (s : CondState σ) (h : CondInv s) : CondInv (condExec m sched s) := by
  induction sched generalizing s with
  | nil => exact h
  | cons i sched ih => exact ih _ (condInv_step m s i h)

theorem condInit_threads {σ : Type} (ts : List (Nat × Except Nat Nat)) (c0 : σ)
    (i : Nat) : (condInit ts c0).threads i =
      (match ts.get? i with
       | some ko => CondThread.start ko.1 ko.2
       | none => CondThread.done 0 (.ok 0)) := rfl

theorem condLineage_init {σ : Type} (ts : List (Nat × Except Nat Nat))
    (c0 : σ) : CondLineage (condInit ts c0) (condInit ts c0) := by
  refine ⟨fun i k out hj => hj, ?_, ?_, ?_, ?_⟩
  · intro i k out hj
    rcases hko : ts[i]? with _ | ko <;> simp [condInit, hko] at hj
  · intro i k e hj
    rcases hko : ts[i]? with _ | ko <;> simp [condInit, hko] at hj
  · intro i k e hj
    rcases hko : ts[i]? with _ | ko <;> simp [condInit, hko] at hj
  · intro i k v hj
    simp [condInit] at hj

theorem condLineage_step {σ : Type} (m : CacheModel σ) (s0 s : CondState σ)
    (i : Nat) (lin : CondLineage s0 s) : CondLineage s0 (condStep1 m s i) := by
  rcases hth : s.threads i with ⟨k, out⟩ | ⟨k, out⟩ | ⟨k, r⟩ | ⟨k, r⟩
  · by_cases hp : k ∈ s.pending
    · have hstep : condStep1 m s i = s := by simp [condStep1, hth, hp]
      rw [hstep]
      exact lin
    · rcases hlk : m.lookup s.cache k with _ | v
      · -- miss
        have hstep : condStep1 m s i =
            { s with pending := k :: s.pending, misses := s.misses + 1,
                     threads := updThread s.threads i (.computing k out),
                     trace := s.trace ++
                       [.waited i k, .lookupMiss i k, .addPending i k] } := by
          simp [condStep1, hth, hp, hlk]
        rw [hstep]
        refine ⟨?_, ?_, ?_, ?_, ?_⟩
        · intro j k' out' hj
          dsimp only at hj
          by_cases hji : j = i
          · subst hji
            rw [updThread_same] at hj
            simp at hj
          · rw [updThread_ne _ _ hji] at hj
            exact lin.started j k' out' hj
        · intro j k' out' hj
          dsimp only at hj
          by_cases hji : j = i
          · subst hji
            rw [updThread_same] at hj
            rw [CondThread.computing.injEq] at hj
            obtain ⟨rfl, rfl⟩ := hj
            exact lin.started _ _ _ hth
          · rw [updThread_ne _ _ hji] at hj
            exact lin.comp j k' out' hj
        · intro j k' e hj
          dsimp only at hj
          by_cases hji : j = i
          · subst hji
            rw [updThread_same] at hj
            simp at hj
          · rw [updThread_ne _ _ hji] at hj
            exact lin.finErr j k' e hj
        · intro j k' e hj
          dsimp only at hj ⊢
          by_cases hji : j = i
          · subst hji
            rw [updThread_same] at hj
            simp at hj
          · rw [updThread_ne _ _ hji] at hj
            obtain ⟨h1, h2, h3⟩ := lin.doneErr j k' e hj
            exact ⟨h1, List.mem_append_left _ h2, List.mem_append_left _ h3⟩
        · intro j k' v' hj
          dsimp only at hj
          rcases List.mem_append.mp hj with hj | hj
          · exact lin.stored j k' v' hj
          · simp at hj
      · -- hit
        have hstep : condStep1 m s i =
            { s with hits := s.hits + 1,
                     threads := updThread s.threads i (.done k (.ok v)),
                     trace := s.trace ++ [.waited i k, .lookupHit i k] } := by
          simp [condStep1, hth, hp, hlk]
        rw [hstep]
        refine ⟨?_, ?_, ?_, ?_, ?_⟩
        · intro j k' out' hj
          dsimp only at hj
          by_cases hji : j = i
          · subst hji
            rw [updThread_same] at hj
            simp at hj
          · rw [updThread_ne _ _ hji] at hj
            exact lin.started j k' out' hj
        · intro j k' out' hj
          dsimp only at hj
          by_cases hji : j = i
          · subst hji
            rw [updThread_same] at hj
            simp at hj
          · rw [updThread_ne _ _ hji] at hj
            exact lin.comp j k' out' hj
        · intro j k' e hj
          dsimp only at hj
          by_cases hji : j = i
          · subst hji
            rw [updThread_same] at hj
            simp at hj
          · rw [updThread_ne _ _ hji] at hj
            exact lin.finErr j k' e hj
        · intro j k' e hj
          dsimp only at hj ⊢
          by_cases hji : j = i
          · subst hji
            rw [updThread_same] at hj
            simp at hj
          · rw [updThread_ne _ _ hji] at hj
            obtain ⟨h1, h2, h3⟩ := lin.doneErr j k' e hj
            exact ⟨h1, List.mem_append_left _ h2, List.mem_append_left _ h3⟩
        · intro j k' v' hj
          dsimp only at hj
          rcases List.mem_append.mp hj with hj | hj
          · exact lin.stored j k' v' hj
          · simp at hj
  · -- computing
    rcases out with e | v
    · -- func raised
      have hstep : condStep1 m s i =
          { s with threads := updThread s.threads i (.finishing k (.error e)),
                   trace := s.trace ++ [.invoke i k] } := by
        simp [condStep1, hth]
      rw [hstep]
      refine ⟨?_, ?_, ?_, ?_, ?_⟩
      · intro j k' out' hj
        dsimp only at hj
        by_cases hji : j = i
        · subst hji
          rw [updThread_same] at hj
          simp at hj
        · rw [updThread_ne _ _ hji] at hj
          exact lin.started j k' out' hj
      · intro j k' out' hj
        dsimp only at hj
        by_cases hji : j = i
        · subst hji
          rw [updThread_same] at hj
          simp at hj
        · rw [updThread_ne _ _ hji] at hj
          exact lin.comp j k' out' hj
      · intro j k' e' hj
        dsimp only at hj
        by_cases hji : j = i
        · subst hji
          rw [updThread_same] at hj
          rw [CondThread.finishing.injEq] at hj
          obtain ⟨rfl, he⟩ := hj
          rw [Except.error.injEq] at he
          subst he
          exact lin.comp _ _ _ hth
        · rw [updThread_ne _ _ hji] at hj
          exact lin.finErr j k' e' hj
      · intro j k' e' hj
        dsimp only at hj ⊢
        by_cases hji : j = i
        · subst hji
          rw [updThread_same] at hj
          simp at hj
        · rw [updThread_ne _ _ hji] at hj
          obtain ⟨h1, h2, h3⟩ := lin.doneErr j k' e' hj
          exact ⟨h1, List.mem_append_left _ h2, List.mem_append_left _ h3⟩
      · intro j k' v' hj
        dsimp only at hj
        rcases List.mem_append.mp hj with hj | hj
        · exact lin.stored j k' v' hj
        · simp at hj
    · -- func returned v, store section
      have hstep : condStep1 m s i =
          { s with cache := storeOrKeep m s.cache k v,
                   threads := updThread s.threads i (.finishing k (.ok v)),
                   trace := s.trace ++ [.invoke i k, .store i k v] } := by
        simp [condStep1, hth]
      rw [hstep]
      refine ⟨?_, ?_, ?_, ?_, ?_⟩
      · intro j k' out' hj
        dsimp only at hj
        by_cases hji : j = i
        · subst hji
          rw [updThread_same] at hj
          simp at hj
        · rw [updThread_ne _ _ hji] at hj
          exact lin.started j k' out' hj
      · intro j k' out' hj
        dsimp only at hj
        by_cases hji : j = i
        · subst hji
          rw [updThread_same] at hj
          simp at hj
        · rw [updThread_ne _ _ hji] at hj
          exact lin.comp j k' out' hj
      · intro j k' e' hj
        dsimp only at hj
        by_cases hji : j = i
        · subst hji
          rw [updThread_same] at hj
          simp at hj
        · rw [updThread_ne _ _ hji] at hj
          exact lin.finErr j k' e' hj
      · intro j k' e' hj
        dsimp only at hj ⊢
        by_cases hji : j = i
        · subst hji
          rw [updThread_same] at hj
          simp at hj
        · rw [updThread_ne _ _ hji] at hj
          obtain ⟨h1, h2, h3⟩ := lin.doneErr j k' e' hj
          exact ⟨h1, List.mem_append_left _ h2, List.mem_append_left _ h3⟩
      · intro j k' v' hj
        dsimp only at hj
        rcases List.mem_append.mp hj with hj | hj
        · exact lin.stored j k' v' hj
        · have : CondEvent.store j k' v' = CondEvent.invoke i k ∨
              CondEvent.store j k' v' = CondEvent.store i k v := by
            simpa using hj
          rcases this with hj2 | hj2
          · exact absurd hj2 (by simp)
          · rw [CondEvent.store.injEq] at hj2
            obtain ⟨rfl, rfl, rfl⟩ := hj2
            exact lin.comp _ _ _ hth
  · -- finishing: finally section
    have hstep : condStep1 m s i =
        { s with pending := s.pending.erase k,
                 threads := updThread s.threads i (.done k r),
                 trace := s.trace ++ [.removePending i k, .notifyAll i] } := by
      simp [condStep1, hth]
    rw [hstep]
    refine ⟨?_, ?_, ?_, ?_, ?_⟩
    · intro j k' out' hj
      dsimp only at hj
      by_cases hji : j = i
      · subst hji
        rw [updThread_same] at hj
        simp at hj
      · rw [updThread_ne _ _ hji] at hj
        exact lin.started j k' out' hj
    · intro j k' out' hj
      dsimp only at hj
      by_cases hji : j = i
      · subst hji
        rw [updThread_same] at hj
        simp at hj
      · rw [updThread_ne _ _ hji] at hj
        exact lin.comp j k' out' hj
    · intro j k' e' hj
      dsimp only at hj
      by_cases hji : j = i
      · subst hji
        rw [updThread_same] at hj
        simp at hj
      · rw [updThread_ne _ _ hji] at hj
        exact lin.finErr j k' e' hj
    · intro j k' e' hj
      dsimp only at hj ⊢
      by_cases hji : j = i
      · subst hji
        rw [updThread_same] at hj
        rw [CondThread.done.injEq] at hj
        obtain ⟨rfl, he⟩ := hj
        subst he
        refine ⟨lin.finErr _ _ _ hth, ?_, ?_⟩
        · exact List.mem_append_right _ (by simp)
        · exact List.mem_append_right _ (by simp)
      · rw [updThread_ne _ _ hji] at hj
        obtain ⟨h1, h2, h3⟩ := lin.doneErr j k' e' hj
        exact ⟨h1, List.mem_append_left _ h2, List.mem_append_left _ h3⟩
    · intro j k' v' hj
      dsimp only at hj
      rcases List.mem_append.mp hj with hj | hj
      · exact lin.stored j k' v' hj
      · simp at hj
  · -- done: inert
    have hstep : condStep1 m s i = s := by simp [condStep1, hth]
    rw [hstep]
    exact lin

theorem condLineage_exec {σ : Type} (m : CacheModel σ) (sched : List Nat)
    (s0 s : CondState σ) (lin : CondLineage s0 s) :
    CondLineage s0 (condExec m sched s) := by
  induction sched generalizing s with
  | nil => exact lin
  | cons i sched ih => exact ih _ (condLineage_step m s0 s i lin)

theorem condAbsent_step {σ : Type} (m : CacheModel σ) (s : CondState σ)
    (i : Nat)
    (hnoadd : ∀ c k v k', k' ≠ k → m.lookup c k' = none →
      m.lookup (storeOrKeep m c k v) k' = none)
    (hinv : CondInv s) (habs : CondAbsent m s) :
    CondAbsent m (condStep1 m s i) := by
  rcases hth : s.threads i with ⟨k, out⟩ | ⟨k, out⟩ | ⟨k, r⟩ | ⟨k, r⟩
  · by_cases hp : k ∈ s.pending
    · have hstep : condStep1 m s i = s := by simp [condStep1, hth, hp]
      rw [hstep]
      exact habs
    · rcases hlk : m.lookup s.cache k with _ | v
      · have hstep : condStep1 m s i =
            { s with pending := k :: s.pending, misses := s.misses + 1,
                     threads := updThread s.threads i (.computing k out),
                     trace := s.trace ++
                       [.waited i k, .lookupMiss i k, .addPending i k] } := by
          simp [condStep1, hth, hp, hlk]
        rw [hstep]
        intro j k' out' hj
        dsimp only at hj ⊢
        by_cases hji : j = i
        · subst hji
          rw [updThread_same] at hj
          rw [CondThread.computing.injEq] at hj
          obtain ⟨rfl, rfl⟩ := hj
          exact hlk
        · rw [updThread_ne _ _ hji] at hj
          exact habs j k' out' hj
      · have hstep : condStep1 m s i =
            { s with hits := s.hits + 1,
                     threads := updThread s.threads i (.done k (.ok v)),
                     trace := s.trace ++ [.waited i k, .lookupHit i k] } := by
          simp [condStep1, hth, hp, hlk]
        rw [hstep]
        intro j k' out' hj
        dsimp only at hj ⊢
        by_cases hji : j = i
        · subst hji
          rw [updThread_same] at hj
          simp at hj
        · rw [updThread_ne _ _ hji] at hj
          exact habs j k' out' hj
  · rcases out with e | v
    · have hstep : condStep1 m s i =
          { s with threads := updThread s.threads i (.finishing k (.error e)),
                   trace := s.trace ++ [.invoke i k] } := by
        simp [condStep1, hth]
      rw [hstep]
      intro j k' out' hj
      dsimp only at hj ⊢
      by_cases hji : j = i
      · subst hji
        rw [updThread_same] at hj
        simp at hj
      · rw [updThread_ne _ _ hji] at hj
        exact habs j k' out' hj
    · have hstep : condStep1 m s i =
          { s with cache := storeOrKeep m s.cache k v,
                   threads := updThread s.threads i (.finishing k (.ok v)),
                   trace := s.trace ++ [.invoke i k, .store i k v] } := by
        simp [condStep1, hth]
      rw [hstep]
      intro j k' out' hj
      dsimp only at hj ⊢
      by_cases hji : j = i
      · subst hji
        rw [updThread_same] at hj
        simp at hj
      · rw [updThread_ne _ _ hji] at hj
        have hk' : m.lookup s.cache k' = none := habs j k' out' hj
        have hkk : k' ≠ k := by
          intro hkk
          subst hkk
          exact hinv.uniq j i k' hji (by rw [hj]; simp) (by rw [hth]; simp)
        exact hnoadd s.cache k v k' hkk hk'
  · have hstep : condStep1 m s i =
        { s with pending := s.pending.erase k,
                 threads := updThread s.threads i (.done k r),
                 trace := s.trace ++ [.removePending i k, .notifyAll i] } := by
      simp [condStep1, hth]
    rw [hstep]
    intro j k' out' hj
    dsimp only at hj ⊢
    by_cases hji : j = i
    · subst hji
      rw [updThread_same] at hj
      simp at hj
    · rw [updThread_ne _ _ hji] at hj
      exact habs j k' out' hj
  · have hstep : condStep1 m s i = s := by simp [condStep1, hth]
    rw [hstep]
    exact habs

theorem condAbsent_init {σ : Type} (m : CacheModel σ)
    (ts : List (Nat × Except Nat Nat)) (c0 : σ) :
    CondAbsent m (condInit ts c0) := by
  intro i k out hj
  rcases hko : ts[i]? with _ | ko <;> simp [condInit, hko] at hj

theorem condInvAbsent_exec {σ : Type} (m : CacheModel σ) (sched : List Nat)
    (s : CondState σ)
    (hnoadd : ∀ c k v k', k' ≠ k → m.lookup c k' = none →
      m.lookup (storeOrKeep m c k v) k' = none)
    (hinv : CondInv s) (habs : CondAbsent m s) :
    CondInv (condExec m sched s) ∧ CondAbsent m (condExec m sched s) := by
  induction sched generalizing s with
  | nil => exact ⟨hinv, habs⟩
  | cons i sched ih =>
    exact ih _ (condInv_step m s i hinv) (condAbsent_step m s i hnoadd hinv habs)

/-- A value stored for a key is never replaced: one step of the
condition-gated pool preserves every present cache binding. -/
theorem condMono_step {σ : Type} (m : CacheModel σ) (s : CondState σ)
    (i k0 w : Nat)
    (hkeep : ∀ c k v k' w', k' ≠ k → m.lookup c k' = some w' →
      m.lookup (storeOrKeep m c k v) k' = some w')
    (habs : CondAbsent m s) (hw : m.lookup s.cache k0 = some w) :
    m.lookup (condStep1 m s i).cache k0 = some w := by
  rcases hth : s.threads i with ⟨k, out⟩ | ⟨k, out⟩ | ⟨k, r⟩ | ⟨k, r⟩
  · by_cases hp : k ∈ s.pending
    · simpa [condStep1, hth, hp] using hw
    · rcases hlk : m.lookup s.cache k with _ | v <;>
        simpa [condStep1, hth, hp, hlk] using hw
  · rcases out with e | v
    · simpa [condStep1, hth] using hw
    · have habsk : m.lookup s.cache k = none := habs i k (.ok v) hth
      have hk0 : k0 ≠ k := by
        intro hkk
        subst hkk
        rw [habsk] at hw
        exact Option.noConfusion hw
      have : (condStep1 m s i).cache = storeOrKeep m s.cache k v := by
        simp [condStep1, hth]
      rw [this]
      exact hkeep s.cache k v k0 w hk0 hw
  · simpa [condStep1, hth] using hw
  · simpa [condStep1, hth] using hw

theorem condMono_exec {σ : Type} (m : CacheModel σ) (sched : List Nat)
    (s : CondState σ) (k0 w : Nat)
    (hnoadd : ∀ c k v k', k' ≠ k → m.lookup c k' = none →
      m.lookup (storeOrKeep m c k v) k' = none)
    (hkeep : ∀ c k v k' w', k' ≠ k → m.lookup c k' = some w' →
      m.lookup (storeOrKeep m c k v) k' = some w')
    (hinv : CondInv s) (habs : CondAbsent m s)
    (hw : m.lookup s.cache k0 = some w) :
    m.lookup (condExec m sched s).cache k0 = some w := by
  induction sched generalizing s with
  | nil => exact hw
  | cons i sched ih =>
    exact ih _ (condInv_step m s i hinv)
      (condAbsent_step m s i hnoadd hinv habs)
      (condMono_step m s i k0 w hkeep habs hw)

theorem missCountF_card (ks : List Nat) : ∀ seen : Finset Nat,
    missCountF seen ks = (ks.toFinset \ seen).card := by
  induction ks with
  | nil => intro seen; simp [missCountF]
  | cons k ks ih =>
    intro seen
    rw [List.toFinset_cons]
    by_cases hk : k ∈ seen
    · rw [missCountF, if_pos hk, ih, Finset.insert_sdiff_of_mem _ hk]
    · rw [missCountF, if_neg hk, ih, Finset.sdiff_insert,
        Finset.insert_sdiff_of_not_mem _ hk]
      by_cases hku : k ∈ ks.toFinset \ seen
      · rw [Finset.insert_eq_self.mpr hku]
        exact Finset.card_erase_add_one hku
      · rw [Finset.erase_eq_of_not_mem hku, Finset.card_insert_of_not_mem hku]

/-- In single-thread order, each `_cached_locked_info` call coincides with the
corresponding `_cached_unlocked_info` call. -/
theorem locked_info_call_eq_unlocked {σ α : Type} (m : CacheModel σ)
    (key : α → Nat) (func : α → Except Nat Nat) (a : α) (st : InfoSt σ) :
    cached_locked_info_call m key func a st
      = cached_unlocked_info_call m key func a st := by
  unfold cached_locked_info_call cached_unlocked_info_call
  rcases hlk : m.lookup st.cache (key a) with _ | r
  · rcases hf : func a with e | v
    · simp [hlk, hf]
    · simp [hlk, hf, lockedStore_eq]
  · simp [hlk]

theorem runInfoCalls_congr {σ α : Type}
    (f g : α → InfoSt σ → Except Nat Nat × InfoSt σ)
    (h : ∀ a st, f a st = g a st) :
    ∀ (as : List α) (st : InfoSt σ), runInfoCalls f as st = runInfoCalls g as st := by
  intro as
  induction as with
  | nil => intro st; rfl
  | cons a as ih =>
    intro st
    show runInfoCalls f as (f a st).2 = runInfoCalls g as (g a st).2
    rw [h a st]
    exact ih _

/-- Stats accounting of a run of `_cached_unlocked_info` calls over a cache
that accepts and retains every insertion. -/
theorem unlocked_run_stats {σ α : Type} (m : CacheModel σ) (key : α → Nat)
    (func : α → Except Nat Nat)
    (hacc : ∀ c k v, ∃ c', m.insert c k v = some c')
    (hret : ∀ c k v c', m.insert c k v = some c' →
      ∀ k', m.lookup c' k' = if k' = k then some v else m.lookup c k')
    (hok : ∀ a, ∃ v, func a = .ok v) :
    ∀ (as : List α) (st : InfoSt σ) (seen : Finset Nat),
      (∀ k, (m.lookup st.cache k).isSome = true ↔ k ∈ seen) →
      (runInfoCalls (cached_unlocked_info_call m key func) as st).misses
          = st.misses + missCountF seen (as.map key) ∧
      (runInfoCalls (cached_unlocked_info_call m key func) as st).hits
          + missCountF seen (as.map key) = st.hits + as.length := by
  intro as
  induction as with
  | nil =>
    intro st seen hseen
    simp [runInfoCalls, missCountF]
  | cons a as ih =>
    intro st seen hseen
    rw [List.map_cons]
    by_cases hk : key a ∈ seen
    · obtain ⟨r, hr⟩ : ∃ r, m.lookup st.cache (key a) = some r := by
        have hs := (hseen (key a)).mpr hk
        rcases hx : m.lookup st.cache (key a) with _ | r
        · rw [hx] at hs; simp at hs
        · exact ⟨r, rfl⟩
      have hrun : runInfoCalls (cached_unlocked_info_call m key func) (a :: as) st
          = runInfoCalls (cached_unlocked_info_call m key func) as
              { st with hits := st.hits + 1 } := by
        show runInfoCalls _ as (cached_unlocked_info_call m key func a st).2 = _
        rw [show cached_unlocked_info_call m key func a st
            = (.ok r, { st with hits := st.hits + 1 }) by
          simp [cached_unlocked_info_call, hr]]
      obtain ⟨ihm, ihh⟩ := ih { st with hits := st.hits + 1 } seen hseen
      rw [hrun, missCountF, if_pos hk]
      refine ⟨by simpa using ihm, ?_⟩
      rw [ihh]
      simp [List.length_cons]
      omega
    · have hnone : m.lookup st.cache (key a) = none := by
        rcases hx : m.lookup st.cache (key a) with _ | r
        · rfl
        · exact absurd ((hseen (key a)).mp (by rw [hx]; rfl)) hk
      obtain ⟨v, hv⟩ := hok a
      obtain ⟨c', hc'⟩ := hacc st.cache (key a) v
      have hrun : runInfoCalls (cached_unlocked_info_call m key func) (a :: as) st
          = runInfoCalls (cached_unlocked_info_call m key func) as
              ⟨c', st.hits, st.misses + 1⟩ := by
        show runInfoCalls _ as (cached_unlocked_info_call m key func a st).2 = _
        rw [show cached_unlocked_info_call m key func a st
            = (.ok v, ⟨c', st.hits, st.misses + 1⟩) by
          simp [cached_unlocked_info_call, hnone, hv, storeOrKeep, hc']]
      have hseen' : ∀ k, (m.lookup (⟨c', st.hits, st.misses + 1⟩ : InfoSt σ).cache k).isSome = true
          ↔ k ∈ insert (key a) seen := by
        intro k
        show (m.lookup c' k).isSome = true ↔ _
        rw [hret st.cache (key a) v c' hc' k]
        by_cases hkk : k = key a
        · subst hkk; simp
        · simp only [if_neg hkk, Finset.mem_insert]
          rw [hseen k]
          constructor
          · exact fun h => Or.inr h
          · rintro (h | h)
            · exact absurd h hkk
            · exact h
      obtain ⟨ihm, ihh⟩ := ih ⟨c', st.hits, st.misses + 1⟩ (insert (key a) seen) hseen'
      dsimp only at ihm ihh
      rw [hrun, missCountF, if_neg hk]
      constructor
      · rw [ihm]; omega
      · rw [List.length_cons]
        omega

/-- A run of `_cached_unlocked_info` calls over a cache that rejects every
insertion: every call misses, the hit counter never moves, the cache object
never changes. -/
theorem unlocked_reject_run {σ α : Type} (m : CacheModel σ) (key : α → Nat)
    (func : α → Except Nat Nat)
    (hrej : ∀ c k v, m.insert c k v = none) :
    ∀ (as : List α) (st : InfoSt σ), (∀ k, m.lookup st.cache k = none) →
      (runInfoCalls (cached_unlocked_info_call m key func) as st).hits = st.hits ∧
      (runInfoCalls (cached_unlocked_info_call m key func) as st).misses
        = st.misses + as.length ∧
      (runInfoCalls (cached_unlocked_info_call m key func) as st).cache = st.cache := by
  intro as
  induction as with
  | nil =>
    intro st hempty
    simp [runInfoCalls]
  | cons a as ih =>
    intro st hempty
    have hstep : (cached_unlocked_info_call m key func a st).2
        = { st with misses := st.misses + 1 } := by
      rcases hf : func a with e | v <;>
        simp [cached_unlocked_info_call, hempty (key a), hf, storeOrKeep, hrej]
    have hrun : runInfoCalls (cached_unlocked_info_call m key func) (a :: as) st
        = runInfoCalls (cached_unlocked_info_call m key func) as
            { st with misses := st.misses + 1 } := by
      show runInfoCalls _ as (cached_unlocked_info_call m key func a st).2 = _
      rw [hstep]
    obtain ⟨h1, h2, h3⟩ := ih { st with misses := st.misses + 1 } hempty
    rw [hrun]
    refine ⟨by simpa using h1, ?_, by simpa using h3⟩
    rw [h2]
    simp [List.length_cons]
    omega

/-- With a cache on which every lookup misses, the condition-gated pool never
increments the hit counter. -/
theorem cond_reject_hits {σ : Type} (m : CacheModel σ)
    (hln : ∀ c k, m.lookup c k = none) :
    ∀ (sched : List Nat) (s : CondState σ),
      (condExec m sched s).hits = s.hits := by
  intro sched
  induction sched with
  | nil => intro s; rfl
  | cons i sched ih =>
    intro s
    show (condExec m sched (condStep1 m s i)).hits = s.hits
    rw [ih (condStep1 m s i)]
    rcases hth : s.threads i with ⟨k, out⟩ | ⟨k, out⟩ | ⟨k, r⟩ | ⟨k, r⟩
    · by_cases hp : k ∈ s.pending
      · simp [condStep1, hth, hp]
      · simp [condStep1, hth, hp, hln s.cache k]
    · rcases out with e | v <;> simp [condStep1, hth]
    · simp [condStep1, hth]
    · simp [condStep1, hth]

/-- One step of the locked pool preserves every present cache binding. -/
theorem lockedMono_step {σ : Type} (m : CacheModel σ) (s : LockedState σ)
    (i k0 w : Nat)
    (hkeep : ∀ c k v k' w', k' ≠ k → m.lookup c k' = some w' →
      m.lookup (storeOrKeep m c k v) k' = some w')
    (hw : m.lookup s.cache k0 = some w) :
    m.lookup (lockedStep1 m s i).cache k0 = some w := by
  rcases hth : s.threads i with ⟨k, out⟩ | ⟨k, out⟩ | ⟨k, r⟩
  · rcases hlk : m.lookup s.cache k with _ | v <;>
      simpa [lockedStep1, hth, hlk] using hw
  · rcases out with e | v
    · simpa [lockedStep1, hth] using hw
    · have hc : (lockedStep1 m s i).cache = (lockedStore m s.cache k v).2 := by
        simp [lockedStep1, hth]
      rw [hc, lockedStore_eq]
      rcases hlk : m.lookup s.cache k with _ | w'
      · have hk0 : k0 ≠ k := by
          intro hkk
          subst hkk
          rw [hlk] at hw
          exact Option.noConfusion hw
        simpa using hkeep s.cache k v k0 w hk0 hw
      · simpa using hw
  · simpa [lockedStep1, hth] using hw

theorem lockedMono_exec {σ : Type} (m : CacheModel σ) (sched : List Nat)
    (s : LockedState σ) (k0 w : Nat)
    (hkeep : ∀ c k v k' w', k' ≠ k → m.lookup c k' = some w' →
      m.lookup (storeOrKeep m c k v) k' = some w')
    (hw : m.lookup s.cache k0 = some w) :
    m.lookup (lockedExec m sched s).cache k0 = some w := by
  induction sched generalizing s with
  | nil => exact hw
  | cons i sched ih => exact ih _ (lockedMono_step m s i k0 w hkeep hw)

/-- The concrete list cache accepts every insertion. -/
theorem listCache_accepts (c : List (Nat × Nat)) (k v : Nat) :
    ∃ c', listCache.insert c k v = some c' :=
  ⟨(k, v) :: c, rfl⟩

/-- The concrete list cache retains insertions and other bindings. -/
theorem listCache_insert_lookup (c : List (Nat × Nat)) (k v : Nat)
    (c' : List (Nat × Nat)) (h : listCache.insert c k v = some c') :
    ∀ k', listCache.lookup c' k' =
      if k' = k then some v else listCache.lookup c k' := by
  have hc : c' = (k, v) :: c := by
    have : some ((k, v) :: c) = some c' := h
    exact (Option.some.injEq _ _).mp this |>.symm
  subst hc
  exact listCache_retain c k v

/-- Storing one key in the list cache keeps every other present binding. -/
theorem listCache_keep (c : List (Nat × Nat)) (k v k' w' : Nat)
    (hne : k' ≠ k) (hw : listCache.lookup c k' = some w') :
    listCache.lookup (storeOrKeep listCache c k v) k' = some w' := by
  show listCache.lookup ((k, v) :: c) k' = some w'
  rw [listCache_retain c k v k', if_neg hne]
  exact hw

/-- Storing one key in the list cache cannot make another key appear. -/
theorem listCache_noadd (c : List (Nat × Nat)) (k v k' : Nat)
    (hne : k' ≠ k) (hw : listCache.lookup c k' = none) :
    listCache.lookup (storeOrKeep listCache c k v) k' = none := by
  show listCache.lookup ((k, v) :: c) k' = none
  rw [listCache_retain c k v k', if_neg hne]
  exact hw

theorem updThread_updThread (ts : Nat → CondThread) (i : Nat)
    (t1 t2 : CondThread) :
    updThread (updThread ts i t1) i t2 = updThread ts i t2 := by
  funext j
  unfold updThread
  by_cases h : j = i <;> simp [h]

theorem updCache_self {σ : Type} (cs : Nat → σ) (cid : Nat) :
    updCache cs cid (cs cid) = cs := by
  funext j
  unfold updCache
  by_cases h : j = cid
  · subst h; simp
  · simp [h]

/-! ### Claim theorems -/

/-- C3: strategy selection is deterministic and fixed at construction: no
cache yields Uncached (stats iff requested); cache without lock yields
Unlocked (stats iff requested); cache with a lock exposing both `wait_for`
and `notify_all` plus stats yields Condition-Gated; cache with any other lock
yields Locked; a condition-capable lock without stats falls back to Locked. -/
theorem strategy_selection :
    (∀ (lock : Option LockLike) (hasInfo : Bool),
      cached_wrapper_select false lock hasInfo
        = (if hasInfo then .uncachedInfo else .uncached)) ∧
    (∀ hasInfo : Bool,
      cached_wrapper_select true none hasInfo
        = (if hasInfo then .unlockedInfo else .unlocked)) ∧
    (∀ l : LockLike, l.wait_for = true → l.notify_all = true →
      cached_wrapper_select true (some l) true = .condInfo) ∧
    (∀ l : LockLike, ¬(l.wait_for = true ∧ l.notify_all = true) →
      cached_wrapper_select true (some l) true = .lockedInfo) ∧
    (∀ l : LockLike, cached_wrapper_select true (some l) false = .locked) := by
  refine ⟨?_, ?_, ?_, ?_, ?_⟩
  · intro lock hasInfo
    cases hasInfo <;> simp [cached_wrapper_select]
  · intro hasInfo
    cases hasInfo <;> simp [cached_wrapper_select]
  · intro l h1 h2
    simp [cached_wrapper_select, h1, h2]
  · intro l h
    rcases l with ⟨wf, na⟩
    cases wf
    · simp [cached_wrapper_select]
    · cases na
      · simp [cached_wrapper_select]
      · exact absurd ⟨rfl, rfl⟩ h
  · intro l
    simp [cached_wrapper_select]

theorem strategy_selection_witness :
    cached_wrapper_select false none true = .uncachedInfo ∧
    cached_wrapper_select true none false = .unlocked ∧
    cached_wrapper_select true (some ⟨true, true⟩) true = .condInfo ∧
    cached_wrapper_select true (some ⟨true, false⟩) true = .lockedInfo ∧
    cached_wrapper_select true (some ⟨true, true⟩) false = .locked := by
  refine ⟨?_, ?_, ?_, ?_, ?_⟩
  · simpa using strategy_selection.1 none true
  · simpa using strategy_selection.2.1 false
  · exact strategy_selection.2.2.1 ⟨true, true⟩ rfl rfl
  · exact strategy_selection.2.2.2.1 ⟨true, false⟩ (by simp)
  · exact strategy_selection.2.2.2.2 ⟨true, true⟩

/-- C6: `cache_clear` is idempotent in every strategy, and in the
stats-enabled strategies it empties the cache and resets both counters in the
same exclusive section, so an immediately following `cache_info` is (0, 0). -/
theorem cache_clear_idempotent_resets {σ : Type} (m : CacheModel σ)
    (hcl : ∀ c, m.clear (m.clear c) = m.clear c) :
    (∀ st : InfoSt σ,
      cached_unlocked_info_clear m (cached_unlocked_info_clear m st)
        = cached_unlocked_info_clear m st ∧
      cached_unlocked_info_info (cached_unlocked_info_clear m st) = (0, 0)) ∧
    (∀ st : InfoSt σ,
      cached_locked_info_clear m (cached_locked_info_clear m st)
        = cached_locked_info_clear m st ∧
      cached_locked_info_info (cached_locked_info_clear m st) = (0, 0)) ∧
    (∀ s : CondState σ,
      cached_cond_info_clear m (cached_cond_info_clear m s)
        = cached_cond_info_clear m s ∧
      cached_cond_info_info (cached_cond_info_clear m s) = (0, 0)) ∧
    (∀ n : Nat,
      uncached_info_clear (uncached_info_clear n) = uncached_info_clear n ∧
      uncached_info_info (uncached_info_clear n) = (0, 0)) ∧
    (∀ c : σ, cached_unlocked_clear m (cached_unlocked_clear m c)
      = cached_unlocked_clear m c) ∧
    (∀ c : σ, cached_locked_clear m (cached_locked_clear m c)
      = cached_locked_clear m c) ∧
    (∀ u : Unit, uncached_clear (uncached_clear u) = uncached_clear u) := by
  refine ⟨?_, ?_, ?_, ?_, ?_, ?_, ?_⟩ <;> intro x <;>
    simp [cached_unlocked_info_clear, cached_locked_info_clear,
      cached_cond_info_clear, uncached_info_clear, cached_unlocked_clear,
      cached_locked_clear, uncached_clear, cached_unlocked_info_info,
      cached_locked_info_info, cached_cond_info_info, uncached_info_info, hcl]

theorem cache_clear_idempotent_resets_witness :
    (cached_unlocked_info_clear listCache
        (cached_unlocked_info_clear listCache ⟨[(1, 2)], 3, 4⟩)
      = cached_unlocked_info_clear listCache ⟨[(1, 2)], 3, 4⟩ ∧
     cached_unlocked_info_info
        (cached_unlocked_info_clear listCache ⟨[(1, 2)], 3, 4⟩) = (0, 0)) ∧
    (cached_locked_info_clear listCache
        (cached_locked_info_clear listCache ⟨[(5, 6)], 7, 8⟩)
      = cached_locked_info_clear listCache ⟨[(5, 6)], 7, 8⟩ ∧
     cached_locked_info_info
        (cached_locked_info_clear listCache ⟨[(5, 6)], 7, 8⟩) = (0, 0)) := by
  have h := cache_clear_idempotent_resets listCache (fun c => rfl)
  exact ⟨h.1 ⟨[(1, 2)], 3, 4⟩, h.2.1 ⟨[(5, 6)], 7, 8⟩⟩

/-- C10: for the method-bound variants, `cache_clear(instance)` is a silent
no-op when the per-instance cache accessor returns the absent-cache sentinel
(and, in the locked variant, the per-instance lock is never acquired);
otherwise it clears exactly that instance's cache. -/
theorem method_clear_noop_or_clears {σ : Type} (m : CacheModel σ)
    (acc : Nat → Option Nat) (i : Nat) (cs : Nat → σ) :
    (acc i = none → cachedmethod_unlocked_clear m acc i cs = cs) ∧
    (acc i = none → cachedmethod_locked_clear m acc i cs = (cs, [])) ∧
    (∀ cid, acc i = some cid →
      cachedmethod_unlocked_clear m acc i cs
          = updCache cs cid (m.clear (cs cid)) ∧
      cachedmethod_locked_clear m acc i cs
          = (updCache cs cid (m.clear (cs cid)), [.lockAcq i]) ∧
      (∀ j, j ≠ cid → cachedmethod_unlocked_clear m acc i cs j = cs j)) := by
  refine ⟨?_, ?_, ?_⟩
  · intro h
    simp [cachedmethod_unlocked_clear, h]
  · intro h
    simp [cachedmethod_locked_clear, h]
  · intro cid h
    refine ⟨by simp [cachedmethod_unlocked_clear, h],
      by simp [cachedmethod_locked_clear, h], ?_⟩
    intro j hj
    simp [cachedmethod_unlocked_clear, h, updCache, hj]

theorem method_clear_noop_or_clears_witness :
    (cachedmethod_unlocked_clear listCache
        (fun n => if n = 0 then none else some n) 0 (fun _ => [(1, 1)])
      = (fun _ => [(1, 1)])) ∧
    (cachedmethod_locked_clear listCache
        (fun n => if n = 0 then none else some n) 0 (fun _ => [(1, 1)])
      = ((fun _ => [(1, 1)]), [])) ∧
    (cachedmethod_locked_clear listCache
        (fun n => if n = 0 then none else some n) 1 (fun _ => [(1, 1)])
      = (updCache (fun _ => [(1, 1)]) 1
          (listCache.clear ((fun _ : Nat => [(1, 1)]) 1)), [.lockAcq 1])) := by
  have h := method_clear_noop_or_clears listCache
    (fun n => if n = 0 then none else some n) 0 (fun _ => [(1, 1)])
  have h1 := method_clear_noop_or_clears listCache
    (fun n => if n = 0 then none else some n) 1 (fun _ => [(1, 1)])
  exact ⟨h.1 rfl, h.2.1 rfl, (h1.2.2 1 rfl).2.1⟩

/-- C9: in every stats-enabled strategy, a call whose lookup misses and whose
computation then raises increments the miss counter by exactly one before the
failure propagates, leaving the hit counter and the cache contents unchanged. -/
theorem miss_counted_on_failure {σ α : Type} (m : CacheModel σ)
    (key : α → Nat) (func : α → Except Nat Nat) :
    (∀ (a : α) (st : InfoSt σ) (e : Nat),
      m.lookup st.cache (key a) = none → func a = .error e →
      cached_unlocked_info_call m key func a st
        = (.error e, { st with misses := st.misses + 1 })) ∧
    (∀ (a : α) (st : InfoSt σ) (e : Nat),
      m.lookup st.cache (key a) = none → func a = .error e →
      cached_locked_info_call m key func a st
        = (.error e, { st with misses := st.misses + 1 })) ∧
    (∀ (a : α) (misses e : Nat), func a = .error e →
      uncached_info_call func a misses = (.error e, misses + 1) ∧
      (uncached_info_info (misses + 1)).1 = 0) ∧
    (∀ (s : CondState σ) (i k e : Nat),
      s.threads i = .start k (.error e) → k ∉ s.pending →
      m.lookup s.cache k = none →
      (condExec m [i, i, i] s).threads i = .done k (.error e) ∧
      (condExec m [i, i, i] s).misses = s.misses + 1 ∧
      (condExec m [i, i, i] s).hits = s.hits ∧
      (condExec m [i, i, i] s).cache = s.cache ∧
      (condExec m [i, i, i] s).pending = s.pending) := by
  refine ⟨?_, ?_, ?_, ?_⟩
  · intro a st e h1 h2
    simp [cached_unlocked_info_call, h1, h2]
  · intro a st e h1 h2
    simp [cached_locked_info_call, h1, h2]
  · intro a misses e h
    exact ⟨by simp [uncached_info_call, h], rfl⟩
  · intro s i k e hth hp hlk
    have h1 : condStep1 m s i =
        { s with pending := k :: s.pending, misses := s.misses + 1,
                 threads := updThread s.threads i (.computing k (.error e)),
                 trace := s.trace ++
                   [.waited i k, .lookupMiss i k, .addPending i k] } := by
      simp [condStep1, hth, hp, hlk]
    have h2 : condStep1 m (condStep1 m s i) i =
        { s with pending := k :: s.pending, misses := s.misses + 1,
                 threads := updThread s.threads i (.finishing k (.error e)),
                 trace := (s.trace ++
                   [.waited i k, .lookupMiss i k, .addPending i k])
                   ++ [.invoke i k] } := by
      rw [h1]
      simp [condStep1, updThread_same, updThread_updThread]
    have h3 : condExec m [i, i, i] s
        = condStep1 m (condStep1 m (condStep1 m s i) i) i := rfl
    rw [h3, h2]
    refine ⟨?_, ?_, ?_, ?_, ?_⟩ <;>
      simp [condStep1, updThread_same, updThread_updThread,
        List.erase_cons_head]

theorem miss_counted_on_failure_witness :
    (cached_unlocked_info_call listCache (fun n : Nat => n)
        (fun _ => .error 9) 4 ⟨[], 0, 0⟩
      = (.error 9, { (⟨[], 0, 0⟩ : InfoSt (List (Nat × Nat))) with
          misses := 0 + 1 })) ∧
    ((condExec listCache [0, 0, 0]
        (condInit [(4, .error 9)] [])).threads 0 = .done 4 (.error 9) ∧
     (condExec listCache [0, 0, 0] (condInit [(4, .error 9)] [])).misses
        = (condInit [(4, .error 9)] ([] : List (Nat × Nat))).misses + 1 ∧
     (condExec listCache [0, 0, 0] (condInit [(4, .error 9)] [])).hits
        = (condInit [(4, .error 9)] ([] : List (Nat × Nat))).hits ∧
     (condExec listCache [0, 0, 0] (condInit [(4, .error 9)] [])).cache
        = (condInit [(4, .error 9)] ([] : List (Nat × Nat))).cache ∧
     (condExec listCache [0, 0, 0] (condInit [(4, .error 9)] [])).pending
        = (condInit [(4, .error 9)] ([] : List (Nat × Nat))).pending) := by
  constructor
  · exact (miss_counted_on_failure listCache (fun n : Nat => n)
      (fun _ => .error 9)).1 4 ⟨[], 0, 0⟩ 9 rfl rfl
  · exact (miss_counted_on_failure listCache (fun n : Nat => n)
      (fun _ : Nat => .error 9)).2.2.2 (condInit [(4, .error 9)] []) 0 4 9
      rfl (by simp [condInit]) rfl

/-- C8: method-bound bypass: when the per-instance cache accessor returns the
absent-cache sentinel, the wrapper invokes the underlying method directly and
touches no cache (equivalent to Uncached); an instance whose accessor
returns a real cache follows the normal cached protocol on that cache alone,
so distinct instances' caching behaviors are independent. -/
theorem method_bypass_independent {σ α : Type} (m : CacheModel σ)
    (acc : Nat → Option Nat) (key : Nat → α → Nat)
    (method : Nat → α → Except Nat Nat) (a : α) (cs : Nat → σ) (i : Nat) :
    (acc i = none →
      cachedmethod_unlocked_call m acc key method i a cs
        = (uncached_call (method i) a, cs) ∧
      cachedmethod_locked_call m acc key method i a cs
        = (uncached_call (method i) a, cs, [])) ∧
    (∀ cid, acc i = some cid →
      (cachedmethod_unlocked_call m acc key method i a cs).1
        = (cached_unlocked_call m (key i) (method i) a (cs cid)).1 ∧
      (cachedmethod_unlocked_call m acc key method i a cs).2
        = updCache cs cid (cached_unlocked_call m (key i) (method i) a (cs cid)).2 ∧
      (cachedmethod_locked_call m acc key method i a cs).1
        = (cached_locked_call m (key i) (method i) a (cs cid)).1 ∧
      (cachedmethod_locked_call m acc key method i a cs).2.1
        = updCache cs cid (cached_locked_call m (key i) (method i) a (cs cid)).2 ∧
      (∀ j, j ≠ cid →
        (cachedmethod_unlocked_call m acc key method i a cs).2 j = cs j ∧
        (cachedmethod_locked_call m acc key method i a cs).2.1 j = cs j)) := by
  constructor
  · intro h
    constructor <;>
      simp [cachedmethod_unlocked_call, cachedmethod_locked_call,
        uncached_call, h]
  · intro cid h
    have hupd : ∀ (j : Nat) (c : σ), j ≠ cid → updCache cs cid c j = cs j := by
      intro j c hj
      simp [updCache, hj]
    rcases hlk : m.lookup (cs cid) (key i a) with _ | r
    · rcases hf : method i a with e | v
      · refine ⟨?_, ?_, ?_, ?_, ?_⟩
        · simp [cachedmethod_unlocked_call, cached_unlocked_call, h, hlk, hf]
        · simp [cachedmethod_unlocked_call, cached_unlocked_call, h, hlk, hf,
            updCache_self]
        · simp [cachedmethod_locked_call, cached_locked_call, h, hlk, hf]
        · simp [cachedmethod_locked_call, cached_locked_call, h, hlk, hf,
            updCache_self]
        · intro j hj
          constructor <;>
            simp [cachedmethod_unlocked_call, cachedmethod_locked_call, h,
              hlk, hf]
      · refine ⟨?_, ?_, ?_, ?_, ?_⟩
        · simp [cachedmethod_unlocked_call, cached_unlocked_call, h, hlk, hf]
        · simp [cachedmethod_unlocked_call, cached_unlocked_call, h, hlk, hf]
        · simp [cachedmethod_locked_call, cached_locked_call, h, hlk, hf]
        · simp [cachedmethod_locked_call, cached_locked_call, h, hlk, hf]
        · intro j hj
          constructor <;>
            simp [cachedmethod_unlocked_call, cachedmethod_locked_call, h,
              hlk, hf, hupd j _ hj]
    · refine ⟨?_, ?_, ?_, ?_, ?_⟩
      · simp [cachedmethod_unlocked_call, cached_unlocked_call, h, hlk]
      · simp [cachedmethod_unlocked_call, cached_unlocked_call, h, hlk,
          updCache_self]
      · simp [cachedmethod_locked_call, cached_locked_call, h, hlk]
      · simp [cachedmethod_locked_call, cached_locked_call, h, hlk,
          updCache_self]
      · intro j hj
        constructor <;>
          simp [cachedmethod_unlocked_call, cachedmethod_locked_call, h, hlk]

theorem method_bypass_independent_witness :
    (cachedmethod_unlocked_call listCache
        (fun n => if n = 0 then none else some n) (fun _ n => n)
        (fun _ n => .ok (n + 1)) 0 7 (fun _ => [])
      = (uncached_call ((fun _ n => Except.ok (n + 1)) 0) 7, fun _ => [])) ∧
    ((cachedmethod_unlocked_call listCache
        (fun n => if n = 0 then none else some n) (fun _ n => n)
        (fun _ n => .ok (n + 1)) 1 7 (fun _ => [])).2
      = updCache (fun _ => []) 1
          (cached_unlocked_call listCache ((fun _ n => n) 1)
            ((fun _ n => Except.ok (n + 1)) 1) 7 ((fun _ : Nat => ([] : List (Nat × Nat))) 1)).2) := by
  constructor
  · exact ((method_bypass_independent listCache
      (fun n => if n = 0 then none else some n) (fun _ n => n)
      (fun _ n => .ok (n + 1)) 7 (fun _ => []) 0).1 rfl).1
  · exact ((method_bypass_independent listCache
      (fun n => if n = 0 then none else some n) (fun _ n => n)
      (fun _ n => .ok (n + 1)) 7 (fun _ => []) 1).2 1 rfl).2.1

/-- C4: capacity rejection never surfaces: a call whose store is rejected
still returns the computed value with no error, in every strategy; with a
cache that rejects every insertion every call misses and the hit counter
never increments. -/
theorem capacity_rejection_transparent {σ α : Type} (m : CacheModel σ)
    (key : α → Nat) (func : α → Except Nat Nat) :
    (∀ (a : α) (st : InfoSt σ) (v : Nat),
      m.lookup st.cache (key a) = none → func a = .ok v →
      m.insert st.cache (key a) v = none →
      cached_unlocked_info_call m key func a st
        = (.ok v, { st with misses := st.misses + 1 })) ∧
    (∀ (a : α) (st : InfoSt σ) (v : Nat),
      m.lookup st.cache (key a) = none → func a = .ok v →
      m.insert st.cache (key a) v = none →
      cached_locked_info_call m key func a st
        = (.ok v, { st with misses := st.misses + 1 })) ∧
    (∀ (s : CondState σ) (i k v : Nat),
      s.threads i = .computing k (.ok v) → m.insert s.cache k v = none →
      (condExec m [i, i] s).threads i = .done k (.ok v) ∧
      (condExec m [i, i] s).cache = s.cache) ∧
    (∀ (a : α) (c : σ) (v : Nat),
      m.lookup c (key a) = none → func a = .ok v →
      m.insert c (key a) v = none →
      cached_unlocked_call m key func a c = (.ok v, c) ∧
      cached_locked_call m key func a c = (.ok v, c)) ∧
    ((∀ c k v, m.insert c k v = none) →
      ∀ (as : List α) (st : InfoSt σ), (∀ k, m.lookup st.cache k = none) →
      (runInfoCalls (cached_unlocked_info_call m key func) as st).hits
          = st.hits ∧
      (runInfoCalls (cached_unlocked_info_call m key func) as st).misses
          = st.misses + as.length ∧
      (runInfoCalls (cached_locked_info_call m key func) as st).hits
          = st.hits ∧
      (runInfoCalls (cached_locked_info_call m key func) as st).misses
          = st.misses + as.length) ∧
    ((∀ c k, m.lookup c k = none) →
      ∀ (sched : List Nat) (s : CondState σ),
        (condExec m sched s).hits = s.hits) := by
  refine ⟨?_, ?_, ?_, ?_, ?_, ?_⟩
  · intro a st v h1 h2 h3
    simp [cached_unlocked_info_call, h1, h2, storeOrKeep, h3]
  · intro a st v h1 h2 h3
    simp [cached_locked_info_call, h1, h2, lockedStore_eq, storeOrKeep, h3]
  · intro s i k v hth hrej
    have h1 : condStep1 m s i =
        { s with cache := storeOrKeep m s.cache k v,
                 threads := updThread s.threads i (.finishing k (.ok v)),
                 trace := s.trace ++ [.invoke i k, .store i k v] } := by
      simp [condStep1, hth]
    have hsk : storeOrKeep m s.cache k v = s.cache := by
      simp [storeOrKeep, hrej]
    have h2 : condExec m [i, i] s = condStep1 m (condStep1 m s i) i := rfl
    rw [h2, h1, hsk]
    constructor <;>
      simp [condStep1, updThread_same, updThread_updThread]
  · intro a c v h1 h2 h3
    constructor
    · simp [cached_unlocked_call, h1, h2, storeOrKeep, h3]
    · simp [cached_locked_call, h1, h2, lockedStore_eq, storeOrKeep, h3]
  · intro hrej as st hempty
    obtain ⟨h1, h2, _⟩ := unlocked_reject_run m key func hrej as st hempty
    refine ⟨h1, h2, ?_, ?_⟩
    · rw [runInfoCalls_congr _ _ (locked_info_call_eq_unlocked m key func) as st]
      exact h1
    · rw [runInfoCalls_congr _ _ (locked_info_call_eq_unlocked m key func) as st]
      exact h2
  · intro hln sched s
    exact cond_reject_hits m hln sched s

theorem capacity_rejection_transparent_witness :
    (cached_unlocked_info_call rejectCache (fun n : Nat => n)
        (fun n => .ok (n * 2)) 3 ⟨(), 0, 0⟩
      = (.ok 6, { (⟨(), 0, 0⟩ : InfoSt Unit) with misses := 0 + 1 })) ∧
    ((runInfoCalls (cached_unlocked_info_call rejectCache (fun n : Nat => n)
        (fun n => .ok (n * 2))) [3, 3, 5] ⟨(), 0, 0⟩).hits
      = (⟨(), 0, 0⟩ : InfoSt Unit).hits ∧
     (runInfoCalls (cached_unlocked_info_call rejectCache (fun n : Nat => n)
        (fun n => .ok (n * 2))) [3, 3, 5] ⟨(), 0, 0⟩).misses
      = (⟨(), 0, 0⟩ : InfoSt Unit).misses + [3, 3, 5].length) := by
  have h := capacity_rejection_transparent rejectCache (fun n : Nat => n)
    (fun n => .ok (n * 2))
  constructor
  · exact h.1 3 ⟨(), 0, 0⟩ 6 rfl rfl rfl
  · obtain ⟨h1, h2, _, _⟩ := h.2.2.2.2.1 (fun _ _ _ => rfl) [3, 3, 5]
      ⟨(), 0, 0⟩ (fun _ => rfl)
    exact ⟨h1, h2⟩

/-- C5: hit/miss accounting: starting from an empty cache and zeroed
counters, a single-threaded run of N successful calls over a cache that
accepts and retains every insertion reports misses = K and hits = N − K,
where K is the number of distinct derived keys. -/
theorem hit_miss_accounting {σ α : Type} (m : CacheModel σ) (key : α → Nat)
    (func : α → Except Nat Nat)
    (hacc : ∀ c k v, ∃ c', m.insert c k v = some c')
    (hret : ∀ c k v c', m.insert c k v = some c' →
      ∀ k', m.lookup c' k' = if k' = k then some v else m.lookup c k')
    (hok : ∀ a, ∃ v, func a = .ok v)
    (c0 : σ) (hempty : ∀ k, m.lookup c0 k = none) (as : List α) :
    (runInfoCalls (cached_unlocked_info_call m key func) as ⟨c0, 0, 0⟩).misses
        = (as.map key).dedup.length ∧
    (runInfoCalls (cached_unlocked_info_call m key func) as ⟨c0, 0, 0⟩).hits
        = as.length - (as.map key).dedup.length ∧
    (runInfoCalls (cached_locked_info_call m key func) as ⟨c0, 0, 0⟩).misses
        = (as.map key).dedup.length ∧
    (runInfoCalls (cached_locked_info_call m key func) as ⟨c0, 0, 0⟩).hits
        = as.length - (as.map key).dedup.length := by
  have hseen : ∀ k,
      (m.lookup (⟨c0, 0, 0⟩ : InfoSt σ).cache k).isSome = true
        ↔ k ∈ (∅ : Finset Nat) := by
    intro k
    show (m.lookup c0 k).isSome = true ↔ _
    simp [hempty k]
  obtain ⟨hm, hh⟩ :=
    unlocked_run_stats m key func hacc hret hok as ⟨c0, 0, 0⟩ ∅ hseen
  dsimp only at hm hh
  have hK : missCountF ∅ (as.map key) = (as.map key).dedup.length := by
    rw [missCountF_card]
    simp [List.card_toFinset]
  rw [hK] at hm hh
  have hlocked :
      runInfoCalls (cached_locked_info_call m key func) as ⟨c0, 0, 0⟩
        = runInfoCalls (cached_unlocked_info_call m key func) as ⟨c0, 0, 0⟩ :=
    runInfoCalls_congr _ _ (locked_info_call_eq_unlocked m key func) as _
  rw [hlocked]
  refine ⟨by omega, by omega, by omega, by omega⟩

theorem hit_miss_accounting_witness :
    (runInfoCalls (cached_unlocked_info_call listCache (fun n : Nat => n)
        (fun n => .ok (n + 10))) [1, 2, 1] ⟨[], 0, 0⟩).misses
      = ([1, 2, 1].map (fun n : Nat => n)).dedup.length ∧
    (runInfoCalls (cached_unlocked_info_call listCache (fun n : Nat => n)
        (fun n => .ok (n + 10))) [1, 2, 1] ⟨[], 0, 0⟩).hits
      = [1, 2, 1].length - ([1, 2, 1].map (fun n : Nat => n)).dedup.length ∧
    (runInfoCalls (cached_locked_info_call listCache (fun n : Nat => n)
        (fun n => .ok (n + 10))) [1, 2, 1] ⟨[], 0, 0⟩).misses
      = ([1, 2, 1].map (fun n : Nat => n)).dedup.length ∧
    (runInfoCalls (cached_locked_info_call listCache (fun n : Nat => n)
        (fun n => .ok (n + 10))) [1, 2, 1] ⟨[], 0, 0⟩).hits
      = [1, 2, 1].length - ([1, 2, 1].map (fun n : Nat => n)).dedup.length :=
  hit_miss_accounting listCache (fun n : Nat => n) (fun n => .ok (n + 10))
    listCache_accepts listCache_insert_lookup (fun a => ⟨a + 10, rfl⟩)
    [] (fun _ => rfl) [1, 2, 1]

/-- C7: condition-gated ordering: a call blocks while its key is pending;
only once the key is absent does the lookup happen, and on a miss the
pending-add and the miss-counter increment happen in the same atomic lock
section, with the wait recorded before the lookup; while a thread is invoking
the underlying function its key is pending and owned by no other call. -/
theorem cond_ordering {σ : Type} (m : CacheModel σ) :
    (∀ (s : CondState σ) (i k : Nat) (out : Except Nat Nat),
      s.threads i = .start k out → k ∈ s.pending → condStep1 m s i = s) ∧
    (∀ (s : CondState σ) (i k : Nat) (out : Except Nat Nat),
      s.threads i = .start k out → k ∉ s.pending →
      m.lookup s.cache k = none →
      condStep1 m s i =
        { s with pending := k :: s.pending, misses := s.misses + 1,
                 threads := updThread s.threads i (.computing k out),
                 trace := s.trace ++
                   [.waited i k, .lookupMiss i k, .addPending i k] }) ∧
    (∀ (s : CondState σ) (i k : Nat) (out : Except Nat Nat) (v : Nat),
      s.threads i = .start k out → k ∉ s.pending →
      m.lookup s.cache k = some v →
      condStep1 m s i =
        { s with hits := s.hits + 1,
                 threads := updThread s.threads i (.done k (.ok v)),
                 trace := s.trace ++ [.waited i k, .lookupHit i k] }) ∧
    (∀ (ts : List (Nat × Except Nat Nat)) (c0 : σ) (sched : List Nat)
        (i k : Nat) (out : Except Nat Nat),
      (condExec m sched (condInit ts c0)).threads i = .computing k out →
      k ∈ (condExec m sched (condInit ts c0)).pending ∧
      ∀ j, j ≠ i →
        isOwner ((condExec m sched (condInit ts c0)).threads j) k = false) := by
  refine ⟨?_, ?_, ?_, ?_⟩
  · intro s i k out hth hp
    simp [condStep1, hth, hp]
  · intro s i k out hth hp hlk
    simp [condStep1, hth, hp, hlk]
  · intro s i k out v hth hp hlk
    simp [condStep1, hth, hp, hlk]
  · intro ts c0 sched i k out hth
    have inv := condInv_exec m sched _ (condInv_init ts c0)
    have howner : isOwner ((condExec m sched (condInit ts c0)).threads i) k
        = true := by
      rw [hth]; simp
    refine ⟨inv.owned i k howner, ?_⟩
    intro j hj
    cases hox : isOwner ((condExec m sched (condInit ts c0)).threads j) k
    · rfl
    · exact (inv.uniq j i k hj hox howner).elim

theorem cond_ordering_witness :
    (condStep1 listCache
        { cache := [], pending := [4], hits := 0, misses := 0,
          threads := fun _ => .start 4 (.ok 1), trace := [] } 0
      = { cache := [], pending := [4], hits := 0, misses := 0,
          threads := fun _ => .start 4 (.ok 1), trace := [] }) ∧
    (condStep1 listCache
        { cache := [], pending := [], hits := 0, misses := 0,
          threads := fun _ => .start 4 (.ok 1), trace := [] } 0
      = { cache := ([] : List (Nat × Nat)), pending := [4], hits := 0,
          misses := 0 + 1,
          threads := updThread (fun _ => .start 4 (.ok 1)) 0
            (.computing 4 (.ok 1)),
          trace := [] ++
            [.waited 0 4, .lookupMiss 0 4, .addPending 0 4] }) ∧
    (4 ∈ (condExec listCache [0] (condInit [(4, .ok 1)] [])).pending ∧
      ∀ j, j ≠ 0 →
        isOwner ((condExec listCache [0]
          (condInit [(4, .ok 1)] [])).threads j) 4 = false) := by
  refine ⟨?_, ?_, ?_⟩
  · exact (cond_ordering listCache).1 _ 0 4 (.ok 1) rfl (by simp)
  · exact (cond_ordering listCache).2.1 _ 0 4 (.ok 1) rfl (by simp) rfl
  · exact (cond_ordering listCache).2.2.2 [(4, .ok 1)] [] [0] 0 4 (.ok 1) rfl

/-- C2: race resolution is first-writer-wins: the locked store is
insert-if-absent (an already-stored value is kept and returned instead of the
just-computed one) and stored values never change under further steps; in the
condition-gated pool the key is always absent at store time, so its plain
assignment has insert-if-absent semantics there too, and stored values never
change (its cache hypotheses say a store touches only its own key). -/
theorem first_writer_wins {σ : Type} (m : CacheModel σ) :
    (∀ (s : LockedState σ) (i k v w : Nat),
      s.threads i = .computing k (.ok v) → m.lookup s.cache k = some w →
      (lockedStep1 m s i).cache = s.cache ∧
      (lockedStep1 m s i).threads i = .done k (.ok w)) ∧
    ((∀ c k v k' w', k' ≠ k → m.lookup c k' = some w' →
        m.lookup (storeOrKeep m c k v) k' = some w') →
      ∀ (sched : List Nat) (s : LockedState σ) (k w : Nat),
        m.lookup s.cache k = some w →
        m.lookup (lockedExec m sched s).cache k = some w) ∧
    ((∀ c k v k', k' ≠ k → m.lookup c k' = none →
        m.lookup (storeOrKeep m c k v) k' = none) →
      ∀ (ts : List (Nat × Except Nat Nat)) (c0 : σ) (sched : List Nat)
        (i k v : Nat),
        (condExec m sched (condInit ts c0)).threads i = .computing k (.ok v) →
        m.lookup (condExec m sched (condInit ts c0)).cache k = none ∧
        (condStep1 m (condExec m sched (condInit ts c0)) i).cache
          = (lockedStore m (condExec m sched (condInit ts c0)).cache k v).2) ∧
    ((∀ c k v k', k' ≠ k → m.lookup c k' = none →
        m.lookup (storeOrKeep m c k v) k' = none) →
      (∀ c k v k' w', k' ≠ k → m.lookup c k' = some w' →
        m.lookup (storeOrKeep m c k v) k' = some w') →
      ∀ (ts : List (Nat × Except Nat Nat)) (c0 : σ) (sched sched' : List Nat)
        (k w : Nat),
        m.lookup (condExec m sched (condInit ts c0)).cache k = some w →
        m.lookup (condExec m sched'
          (condExec m sched (condInit ts c0))).cache k = some w) := by
  refine ⟨?_, ?_, ?_, ?_⟩
  · intro s i k v w hth hlk
    have hsd : lockedStore m s.cache k v = (w, s.cache) := by
      rw [lockedStore_eq, hlk]
    constructor
    · simp [lockedStep1, hth, hsd]
    · simp [lockedStep1, hth, hsd, updLThread]
  · intro hkeep sched s k w hw
    exact lockedMono_exec m sched s k w hkeep hw
  · intro hnoadd ts c0 sched i k v hth
    obtain ⟨hinv, habs⟩ := condInvAbsent_exec m sched (condInit ts c0) hnoadd
      (condInv_init ts c0) (condAbsent_init m ts c0)
    have hnone := habs i k (.ok v) hth
    refine ⟨hnone, ?_⟩
    have hca : (condStep1 m (condExec m sched (condInit ts c0)) i).cache
        = storeOrKeep m (condExec m sched (condInit ts c0)).cache k v := by
      simp [condStep1, hth]
    rw [hca, lockedStore_eq, hnone]
  · intro hnoadd hkeep ts c0 sched sched' k w hw
    obtain ⟨hinv, habs⟩ := condInvAbsent_exec m sched (condInit ts c0) hnoadd
      (condInv_init ts c0) (condAbsent_init m ts c0)
    exact condMono_exec m sched' _ k w hnoadd hkeep hinv habs hw

theorem first_writer_wins_witness :
    ((lockedStep1 listCache
        { cache := [(1, 9)], hits := 0, misses := 1,
          threads := fun _ => .computing 1 (.ok 5) } 0).cache = [(1, 9)] ∧
     (lockedStep1 listCache
        { cache := [(1, 9)], hits := 0, misses := 1,
          threads := fun _ => .computing 1 (.ok 5) } 0).threads 0
        = .done 1 (.ok 9)) ∧
    (listCache.lookup (condExec listCache [0]
        (condExec listCache [0, 0] (condInit [(4, .ok 1)] []))).cache 4
      = some 1) := by
  constructor
  · exact (first_writer_wins listCache).1
      { cache := [(1, 9)], hits := 0, misses := 1,
        threads := fun _ => .computing 1 (.ok 5) } 0 1 5 9 rfl rfl
  · exact (first_writer_wins listCache).2.2.2 listCache_noadd listCache_keep
      [(4, .ok 1)] [] [0, 0] [0] 4 1 rfl

/-- C1: condition-gated cleanup on failure: a completed call that raised has
propagated its own predetermined failure unmodified, stored nothing in the
cache, removed its key from the PendingSet and broadcast a wake before
completing, and every key still pending has another in-flight owner. -/
theorem cond_failure_cleanup {σ : Type} (m : CacheModel σ)
    (ts : List (Nat × Except Nat Nat)) (c0 : σ) (sched : List Nat)
    (i k e : Nat)
    (hdone : (condExec m sched (condInit ts c0)).threads i
      = .done k (.error e)) :
    ts[i]? = some (k, .error e) ∧
    (∀ k' v,
      CondEvent.store i k' v ∉ (condExec m sched (condInit ts c0)).trace) ∧
    CondEvent.removePending i k ∈ (condExec m sched (condInit ts c0)).trace ∧
    CondEvent.notifyAll i ∈ (condExec m sched (condInit ts c0)).trace ∧
    (∀ k', k' ∈ (condExec m sched (condInit ts c0)).pending →
      ∃ j, j ≠ i ∧
        isOwner ((condExec m sched (condInit ts c0)).threads j) k' = true) := by
  have lin := condLineage_exec m sched _ _ (condLineage_init ts c0)
  have inv := condInv_exec m sched _ (condInv_init ts c0)
  obtain ⟨hstart, hrem, hnot⟩ := lin.doneErr i k e hdone
  refine ⟨?_, ?_, hrem, hnot, ?_⟩
  · rcases hko : ts[i]? with _ | ko
    · simp [condInit, hko] at hstart
    · have hstart' := hstart
      simp [condInit, hko] at hstart'
      obtain ⟨h1, h2⟩ := hstart'
      rcases ko with ⟨k0, o0⟩
      simp at h1 h2
      rw [h1, h2]
  · intro k' v hst
    have h2 := lin.stored i k' v hst
    rw [hstart] at h2
    simp at h2
  · intro k' hk'
    obtain ⟨j, hj⟩ := inv.covered k' hk'
    refine ⟨j, ?_, hj⟩
    intro hji
    subst hji
    rw [hdone] at hj
    simp at hj

theorem cond_failure_cleanup_witness :
    ([((5 : Nat), (Except.error 7 : Except Nat Nat))][(0 : Nat)]?
        = some (5, .error 7)) ∧
    (∀ k' v, CondEvent.store 0 k' v ∉
      (condExec listCache [0, 0, 0] (condInit [(5, .error 7)] [])).trace) ∧
    CondEvent.removePending 0 5 ∈
      (condExec listCache [0, 0, 0] (condInit [(5, .error 7)] [])).trace ∧
    CondEvent.notifyAll 0 ∈
      (condExec listCache [0, 0, 0] (condInit [(5, .error 7)] [])).trace ∧
    (∀ k', k' ∈ (condExec listCache [0, 0, 0]
        (condInit [(5, .error 7)] [])).pending →
      ∃ j, j ≠ 0 ∧
        isOwner ((condExec listCache [0, 0, 0]
          (condInit [(5, .error 7)] [])).threads j) k' = true) :=
  cond_failure_cleanup listCache [(5, .error 7)] [] [0, 0, 0] 0 5 7 rfl

end Cachetools
